import Mathlib

/-!
# oncall: a verification development

A shallow embedding of the report functions of `main.go`, the helpers of
`aux.go` and the wire types of `fetch.go`, followed by theorems about them.

Conventions of the embedding:

* A Go pointer is an `Option`; dereferencing `none` is the run-time panic
  `Outcome.panic`.
* `log.Fatalln` is `Outcome.fatal`; a loop that has not finished when its fuel
  is used up is `Outcome.outOfFuel`.
* `uint` is a `Nat` reduced modulo `2 ^ 64` wherever the source increments or
  converts.
* `time.Parse("2006-01-02", _)` yields the number of days since `0000-01-01`
  in the proleptic Gregorian calendar; the `time.Time` of that midnight is
  Go's count of seconds since its absolute zero, an unsigned 64-bit number
  that `AddDate` advances modulo `2 ^ 64`.
* The library calls `time.Parse(time.RFC3339, _)`, `cal.Calendar.IsHoliday`,
  `sort.Slice`, `strings.ToLower` and `strings.Contains` are parameters.
-/

namespace Oncall

/-! ## Results of running a piece of the program -/

/-- Result of running a piece of the program. -/
inductive Outcome (α : Type) where
  | done : α → Outcome α
  | fatal : Outcome α
  | panic : Outcome α
  | outOfFuel : Outcome α
  deriving DecidableEq, Repr

/-- Sequencing of outcomes: the first failure wins. -/
def Outcome.bind {α β : Type} : Outcome α → (α → Outcome β) → Outcome β
  | .done a, f => f a
  | .fatal, _ => .fatal
  | .panic, _ => .panic
  | .outOfFuel, _ => .outOfFuel

/-- Dereference of a Go pointer: a nil pointer panics. -/
def deref {α : Type} : Option α → Outcome α
  | some a => .done a
  | none => .panic

/-- Width of the Go type `uint` on the 64-bit targets: values are below this. -/
def uintMod : Nat := 2 ^ 64

/-! ## Calendar dates (`time.Parse("2006-01-02", s)`) -/

/-- Value of a decimal digit character, if it is one. -/
def digitVal (c : Char) : Option Nat :=
  if 48 ≤ c.toNat ∧ c.toNat ≤ 57 then some (c.toNat - 48) else none

/-- Leap years of the proleptic Gregorian calendar. -/
def isLeap (y : Nat) : Bool :=
  y % 4 = 0 ∧ (y % 100 ≠ 0 ∨ y % 400 = 0)

/-- Number of days of month `m` (1..12) of year `y`. -/
def daysIn (y m : Nat) : Nat :=
  if m = 2 then (if isLeap y then 29 else 28)
  else if m = 4 ∨ m = 6 ∨ m = 9 ∨ m = 11 then 30
  else 31

/-- Days from `0000-01-01` to the first day of year `y`. -/
def daysBeforeYear (y : Nat) : Nat :=
  365 * y + (y + 3) / 4 - (y + 99) / 100 + (y + 399) / 400

/-- Days from the first of January to the first day of month `m` in year `y`. -/
def daysBeforeMonth (y m : Nat) : Nat :=
  ((List.range (m - 1)).map (fun i => daysIn y (i + 1))).sum

/-- Day number of the civil date `y-m-d`, counted from `0000-01-01`. -/
def dayNumber (y m d : Nat) : Nat :=
  daysBeforeYear y + daysBeforeMonth y m + (d - 1)

/-- Model of `time.Parse("2006-01-02", s)`: four digits, a dash, two digits, a
dash, two digits and nothing else; month in 1..12 and day within the month. -/
def parseDate (s : String) : Option Nat :=
  match s.data with
  | [y1, y2, y3, y4, '-', m1, m2, '-', d1, d2] =>
    match digitVal y1, digitVal y2, digitVal y3, digitVal y4,
          digitVal m1, digitVal m2, digitVal d1, digitVal d2 with
    | some a, some b, some c, some d, some e, some f, some g, some h =>
      let y := 1000 * a + 100 * b + 10 * c + d
      let m := 10 * e + f
      let dd := 10 * g + h
      if 1 ≤ m ∧ m ≤ 12 ∧ 1 ≤ dd ∧ dd ≤ daysIn y m then some (dayNumber y m dd) else none
    | _, _, _, _, _, _, _, _ => none
  | _ => none

/-- Model of `time.Time.Weekday` on a day number: 0 is Sunday, 6 is Saturday
(`0000-01-01` is a Saturday). -/
def weekdayOfDay (t : Nat) : Nat := (t + 6) % 7

/-- A holiday calendar of `github.com/rickar/cal`, reduced to its `IsHoliday`. -/
structure Calendar where
  /-- Membership test of the calendar, on the civil day: the number of days from
  `0000-01-01`, negative before it. -/
  IsHoliday : Int → Bool

/-! ## `time.Time` as `workDays` uses it -/

/-- Days from Go's absolute zero (1 January of the year -292277022399, a
Monday) to `0000-01-01`. -/
def absoluteZeroDays : Nat := 106751990353566

/-- The `time.Time` of midnight UTC of a day number: seconds since the absolute
zero, as an unsigned 64-bit number. -/
def absOfDay (d : Nat) : Nat := ((absoluteZeroDays + d) * 86400) % 2 ^ 64

/-- Model of `t.AddDate(0, 0, 1)`: one day of seconds more, modulo `2 ^ 64`. -/
def addDay (t : Nat) : Nat := (t + 86400) % 2 ^ 64

/-- Model of `t.Weekday()` on the count of seconds: 0 is Sunday, 6 is Saturday. -/
def absWeekday (t : Nat) : Nat := ((t + 86400) % 2 ^ 64) % 604800 / 86400

/-- The civil day of a count of seconds, as the calendars read it. -/
def absCivilDay (t : Nat) : Int := ((t / 86400 : Nat) : Int) - (absoluteZeroDays : Int)

/-! ## `workDays` and `storyPoints` (aux.go) -/

/-- The `for` loop of `workDays`: `fuel` bounds the number of iterations. -/
def workDaysLoop (cUK : Calendar) : Nat → Nat → Nat → Nat → Outcome Nat
  | 0, _, _, _ => .outOfFuel
  | fuel + 1, t1, t2, n =>
    let n1 :=
      if absWeekday t1 ≠ 0 ∧ absWeekday t1 ≠ 6 ∧ ¬ cUK.IsHoliday (absCivilDay t1) = true
      then (n + 1) % uintMod else n
    if t2 = t1 then .done n1 else workDaysLoop cUK fuel (addDay t1) t2 n1

/-- Embedding of `workDays(s1, s2)`. -/
def workDays (cUK : Calendar) (fuel : Nat) (s1 s2 : String) : Outcome Nat :=
  match parseDate s1 with
  | none => .fatal
  | some d1 =>
    match parseDate s2 with
    | none => .fatal
    | some d2 => workDaysLoop cUK fuel (absOfDay d1) (absOfDay d2) 0

/-- Number of binary digits of `n`, computed with `fuel` halvings. -/
def bitLenAux : Nat → Nat → Nat
  | 0, _ => 0
  | fuel + 1, n => if n = 0 then 0 else bitLenAux fuel (n / 2) + 1

/-- Number of binary digits of `n`. -/
def bitLen (n : Nat) : Nat := bitLenAux n n

/-- Rounding of the positive real `m / 2 ^ k` to the nearest number with a
24-bit significand, ties to even (IEEE 754 binary32, normal range). The result
is the numerator of the rounded number over the same `2 ^ k`. -/
def roundF32 (m : Nat) : Nat :=
  if bitLen m ≤ 24 then m
  else
    let s := bitLen m - 24
    let q := m / 2 ^ s
    let r := m % 2 ^ s
    let half := 2 ^ (s - 1)
    let q1 := if r > half ∨ (r = half ∧ q % 2 = 1) then q + 1 else q
    q1 * 2 ^ s

/-- Significand of the `float32` constant `1.4`: the constant is
`11744051 / 2 ^ 23`, the binary32 number nearest to 1.4. -/
def f32_1_4 : Nat := 11744051

/-- Embedding of `storyPoints`: `uint(float32(offShiftDays) * 1.4)`. -/
def storyPoints (offShiftDays : Nat) : Nat :=
  (roundF32 (roundF32 offShiftDays * f32_1_4) / 2 ^ 23) % uintMod

/-- Business day in the words of the specification: neither Saturday nor Sunday
nor a holiday of the United Kingdom calendar. -/
def isBusinessDay (cUK : Calendar) (d : Nat) : Bool :=
  weekdayOfDay d ≠ 6 ∧ weekdayOfDay d ≠ 0 ∧ cUK.IsHoliday (d : Int) = false

/-- Number of business days `d` with `t1 ≤ d ≤ t2`, in the words of the specification. -/
def businessDaysBetween (cUK : Calendar) (t1 t2 : Nat) : Nat :=
  ((List.range' t1 (t2 + 1 - t1)).filter (isBusinessDay cUK)).length


/-! ## Timestamps: what `time.Parse`, `Format` and `Weekday` work on -/

/-- Wall-clock reading of a parsed timestamp, in the zone the timestamp names.
`Format` and `Weekday` of Go work on these fields. -/
structure Time where
  /-- Year, 0 to 9999. -/
  year : Nat
  /-- Month, 1 to 12. -/
  month : Nat
  /-- Day of the month. -/
  day : Nat
  /-- Hour, 0 to 23. -/
  hour : Nat
  /-- Minute, 0 to 59. -/
  minute : Nat
  /-- Second, 0 to 59. -/
  second : Nat
  deriving DecidableEq, Repr

/-- Two decimal digits read as a number. -/
def twoDigits (a b : Char) : Option Nat :=
  match digitVal a, digitVal b with
  | some x, some y => some (10 * x + y)
  | _, _ => none

/-- Four decimal digits read as a number. -/
def fourDigits (a b c d : Char) : Option Nat :=
  match digitVal a, digitVal b, digitVal c, digitVal d with
  | some w, some x, some y, some z => some (1000 * w + 100 * x + 10 * y + z)
  | _, _, _, _ => none

/-- The hour of a timestamp, as Go reads it for the layout element `15`: two
digits, or one digit when no digit follows. -/
def hourAnd : List Char → Option (Nat × List Char)
  | [] => none
  | [a] => (digitVal a).map (fun x => (x, []))
  | a :: b :: rest =>
    match digitVal a, digitVal b with
    | some x, some y => some (10 * x + y, rest)
    | some x, none => some (x, b :: rest)
    | none, _ => none

/-- A fraction of a second after the seconds is skipped: a period or a comma
followed by at least one digit, and the digits after it. -/
def skipFraction : List Char → List Char
  | c :: d :: rest =>
    if (c = '.' ∨ c = ',') ∧ (digitVal d).isSome = true
    then rest.dropWhile (fun x => (digitVal x).isSome)
    else c :: d :: rest
  | l => l

/-- The zone of a timestamp, for the layout element `Z07:00`: `Z`, or a sign,
two digits of hours up to 24, a colon and two digits of minutes up to 60; and
nothing after it. -/
def zoneOk : List Char → Bool
  | 'Z' :: rest => rest.isEmpty
  | [sg, h1, h2, c, m1, m2] =>
    decide (c = ':') && decide (sg = '+' ∨ sg = '-') &&
      (match twoDigits h1 h2, twoDigits m1 m2 with
       | some h, some m => decide (h ≤ 24 ∧ m ≤ 60)
       | _, _ => false)
  | _ => false

/-- The time of day and the zone of a timestamp, after the `T`. -/
def clockAndZone (rest : List Char) : Option (Nat × Nat × Nat) :=
  match hourAnd rest with
  | some (h, c4 :: n1 :: n2 :: c5 :: s1 :: s2 :: tail) =>
    match twoDigits n1 n2, twoDigits s1 s2 with
    | some n, some s =>
      if c4 = ':' ∧ c5 = ':' ∧ h ≤ 23 ∧ n ≤ 59 ∧ s ≤ 59 ∧ zoneOk (skipFraction tail) = true
      then some (h, n, s) else none
    | _, _ => none
  | _ => none

/-- A model of `time.Parse(time.RFC3339, t)`, the layout
`2006-01-02T15:04:05Z07:00`, with the range checks of Go; the result is the
wall-clock reading in the zone the timestamp names. -/
def parseRFC3339 (t : String) : Option Time :=
  match t.data with
  | y1 :: y2 :: y3 :: y4 :: c1 :: m1 :: m2 :: c2 :: d1 :: d2 :: c3 :: rest =>
    match fourDigits y1 y2 y3 y4, twoDigits m1 m2, twoDigits d1 d2, clockAndZone rest with
    | some y, some m, some d, some (h, n, s) =>
      if c1 = '-' ∧ c2 = '-' ∧ c3 = 'T' ∧ 1 ≤ m ∧ m ≤ 12 ∧ 1 ≤ d ∧ d ≤ daysIn y m
      then some ⟨y, m, d, h, n, s⟩ else none
    | _, _, _, _ => none
  | _ => none

/-- Character of a decimal digit. -/
def digitChar (d : Nat) : Char := Char.ofNat (48 + d % 10)

/-- Number printed with two digits. -/
def pad2 (n : Nat) : List Char := [digitChar (n / 10), digitChar n]

/-- Number printed with four digits. -/
def pad4 (n : Nat) : List Char :=
  [digitChar (n / 1000), digitChar (n / 100), digitChar (n / 10), digitChar n]

/-- Model of `Time.Format` for the two layouts the program uses,
`"2006-01-02 15:04"` and `"2006-01-02"`; any other layout is printed as the
date and minute as well. -/
def Time.Format (t : Time) (f : String) : String :=
  if f = "2006-01-02" then
    String.mk (pad4 t.year ++ '-' :: pad2 t.month ++ '-' :: pad2 t.day)
  else
    String.mk (pad4 t.year ++ '-' :: pad2 t.month ++ '-' :: pad2 t.day ++
      ' ' :: pad2 t.hour ++ ':' :: pad2 t.minute)

/-- Day number of the civil date of a timestamp. -/
def Time.dayNum (t : Time) : Nat := dayNumber t.year t.month t.day

/-- Model of `Time.Weekday`: 0 is Sunday, 6 is Saturday. -/
def Time.Weekday (t : Time) : Nat := weekdayOfDay t.dayNum

/-- Model of `time.Weekday.String`. -/
def weekdayString (d : Nat) : String :=
  match d with
  | 0 => "Sunday"
  | 1 => "Monday"
  | 2 => "Tuesday"
  | 3 => "Wednesday"
  | 4 => "Thursday"
  | 5 => "Friday"
  | 6 => "Saturday"
  | _ => "%!Weekday(" ++ toString d ++ ")"

/-! ## Wire types (fetch.go) -/

/-- Embedding of `entryUser`. -/
structure entryUser where
  /-- JSON `id`. -/
  ID : String
  /-- JSON `summary`. -/
  Name : String
  deriving DecidableEq, Repr

/-- Embedding of `scheduleEntry`. -/
structure scheduleEntry where
  /-- JSON `start`. -/
  Start : String
  /-- JSON `end`. -/
  End : String
  /-- JSON `user`, a pointer. -/
  EntryUser : Option entryUser
  deriving DecidableEq, Repr

/-- Embedding of `onCall`. -/
structure onCall where
  /-- JSON `user`, a pointer. -/
  EntryUser : Option entryUser
  deriving DecidableEq, Repr

/-- Embedding of `finalSchedule`. -/
structure finalSchedule where
  /-- JSON `rendered_schedule_entries`, a slice of pointers. -/
  RenderedScheduleEntries : List (Option scheduleEntry)
  deriving DecidableEq, Repr

/-- Embedding of `pagerdutySchedule`. -/
structure pagerdutySchedule where
  /-- JSON `final_schedule`, a pointer. -/
  FinalSchedule : Option finalSchedule
  /-- JSON `oncall`, a pointer. -/
  Oncall : Option onCall
  /-- JSON `users`, a slice of pointers. -/
  Users : List (Option entryUser)
  deriving DecidableEq, Repr

/-- Embedding of `pagerdutyScheduleResponse`. -/
structure pagerdutyScheduleResponse where
  /-- JSON `schedule`, a pointer. -/
  PagerdutySchedule : Option pagerdutySchedule
  deriving DecidableEq, Repr

/-- What one call of `getSchedule` returns: an error text or a decoded response. -/
abbrev FetchResult := Except String pagerdutyScheduleResponse

/-- The network as `getSchedule` sees it. The first argument names the call (the
shift whose worker makes it), since two calls with equal arguments may be
answered differently; the others are `shiftID`, `startdate`, `enddate`, `token`. -/
abbrev Fetcher := String → String → String → String → String → FetchResult

/-! ## Tables, `sort.Slice` and Go maps -/

/-- A cell of a `table.Row`. -/
inductive Cell where
  | str : String → Cell
  | uint : Nat → Cell
  | int : Int → Cell
  deriving DecidableEq, Repr

/-- Embedding of `table.Row`. -/
abbrev Row := List Cell

/-- What `printTable(data, fields)` is given. -/
structure Table where
  /-- Header. -/
  fields : Row
  /-- Data rows, in the order printed. -/
  data : List Row
  deriving DecidableEq, Repr

/-- Go's `<` on strings: lexicographic on the characters. -/
def strLess (a b : String) : Bool := decide (a.data < b.data)

/-- The string in the first cell of a row (`data[i][0].(string)`). Every row the
reports build starts with a string cell; elsewhere the value is empty. -/
def Row.key (r : Row) : String :=
  match r with
  | Cell.str s :: _ => s
  | _ => ""

/-- The comparison `data[i][0].(string) < data[j][0].(string)`. -/
def lessByFirst (a b : Row) : Bool := strLess a.key b.key

/-- The unsigned number in the fifth cell of a row (`data[i][4].(uint)`). -/
def Row.total (r : Row) : Nat :=
  match r with
  | [_, _, _, _, Cell.uint n] => n
  | _ => 0

/-- The comparison `data[i][4].(uint) > data[j][4].(uint)` of `shiftReport`. -/
def lessByTotalDesc (a b : Row) : Bool := decide (a.total > b.total)

/-- A sorting routine in the place of `sort.Slice`. -/
abbrev SortSlice := (Row → Row → Bool) → List Row → List Row

/-- A comparison that `sort.Slice` accepts: a strict weak ordering. -/
structure StrictWeak (less : Row → Row → Bool) : Prop where
  irrefl : ∀ a, less a a = false
  trans : ∀ a b c, less a b = true → less b c = true → less a c = true
  incomp : ∀ a b c, less a b = false → less b c = false → less a c = false

/-- Contract of `sort.Slice`: the result is a rearrangement of the slice in
which no element is less than one before it. -/
def IsSortSlice (sortSlice : SortSlice) : Prop :=
  ∀ less, StrictWeak less → ∀ l,
    (sortSlice less l).Perm l ∧ (sortSlice less l).Pairwise (fun a b => less b a = false)

/-- Inner loop of `insertionSortLessFunc`: `x` moves left past every element it
is less than. The sorted prefix is held last element first. -/
def insertLeft (less : Row → Row → Bool) (x : Row) : List Row → List Row
  | [] => [x]
  | y :: ys => if less x y then y :: insertLeft less x ys else x :: y :: ys

/-- Insertion sort as `sort.Slice` runs it on slices of at most 12 elements. -/
def insertionSortLessFunc : SortSlice :=
  fun less l => (l.foldl (fun acc x => insertLeft less x acc) []).reverse

/-- A Go `map[string]V`: keys are distinct, the order carries no meaning. -/
abbrev GoMap (ν : Type) := List (String × ν)

/-- Reading `m[k]` with the comma-ok form. -/
def GoMap.get {ν : Type} (m : GoMap ν) (k : String) : Option ν :=
  match m with
  | [] => none
  | (k1, v1) :: rest => if k1 = k then some v1 else GoMap.get rest k

/-- The assignment `m[k] = v`. -/
def GoMap.set {ν : Type} (m : GoMap ν) (k : String) (v : ν) : GoMap ν :=
  match m with
  | [] => [(k, v)]
  | (k1, v1) :: rest => if k1 = k then (k, v) :: rest else (k1, v1) :: GoMap.set rest k v

/-- Reading `m[k]` from a `map[string]string`: the empty string when absent. -/
def GoMap.getStr (m : GoMap String) (k : String) : String :=
  (GoMap.get m k).getD ""

/-- Reading `m[k]` from a `map[string]uint`: zero when absent. -/
def GoMap.getNat (m : GoMap Nat) (k : String) : Nat :=
  (GoMap.get m k).getD 0

/-! ## Workers under one mutex -/

/-- The order in which critical sections run. Every worker has a queue of the
sections it will run, in its own order; each pick of the schedule lets the
named worker run its next section, and what is left when the picks are used up
runs worker by worker (`wg.Wait` returns only after all of them). -/
def interleave {ε : Type} : List (List ε) → List Nat → List ε
  | qs, [] => qs.flatten
  | qs, i :: sched =>
    match qs.get? i with
    | some (e :: rest) => e :: interleave (qs.set i rest) sched
    | _ => interleave qs sched

/-- Running every worker's preparation: a panic in any goroutine ends the program. -/
def collect {α : Type} : List (Outcome α) → Outcome (List α)
  | [] => .done []
  | o :: os => o.bind fun a => (collect os).bind fun as => .done (a :: as)

/-! ## What the program takes from its libraries and its run time -/

/-- The three calendars `cUK`, `cUS` and `cSG` of aux.go. -/
structure Calendars where
  /-- British holidays. -/
  cUK : Calendar
  /-- Holidays of the United States. -/
  cUS : Calendar
  /-- Singapore public holidays. -/
  cSG : Calendar

/-- Library routines and run-time choices the reports depend on. -/
structure Env where
  /-- Routine `time.Parse(time.RFC3339, _)`: the wall-clock reading of a
  timestamp, or nothing when it does not parse. -/
  Parse : String → Option Time
  /-- The routine behind `sort.Slice`. -/
  sortSlice : SortSlice
  /-- The order in which `range` visits a map. -/
  range : {ν : Type} → GoMap ν → GoMap ν
  /-- Routine `strings.ToLower`. -/
  ToLower : String → String
  /-- Routine `strings.Contains`. -/
  Contains : String → String → Bool
  /-- The calendars of aux.go. -/
  cals : Calendars
  /-- Text of `fmt.Sprintf("%.1f", float32(onCallDays)*100/float32(sprintDays))`. -/
  sprintfTactical : Nat → Nat → String
  /-- Text of `fmt.Sprintf("%.2v", float32(count) / total * 100)`. -/
  sprintfShare : Int → Nat → String

/-- The contracts of the library routines: `sort.Slice` sorts, and `range`
visits every entry of a map exactly once. -/
def Env.Sound (E : Env) : Prop :=
  IsSortSlice E.sortSlice ∧ ∀ (ν : Type) (m : GoMap ν), (E.range m).Perm m

/-- The contract of `time.Parse(time.RFC3339, _)`: the reading it returns is a
date of the years 0 to 9999 with a time of day. -/
def Env.ParseValid (E : Env) : Prop :=
  ∀ (s : String) (t : Time), E.Parse s = some t →
    t.year ≤ 9999 ∧ 1 ≤ t.month ∧ t.month ≤ 12 ∧ 1 ≤ t.day ∧ t.day ≤ daysIn t.year t.month ∧
      t.hour ≤ 23 ∧ t.minute ≤ 59

/-! ## The helpers of aux.go on timestamps -/

/-- Embedding of `parseTime(t)`. -/
def parseTime (E : Env) (t : String) : Option Time := E.Parse t

/-- Embedding of `convertTime(t, f)`: `none` is the error return. -/
def convertTime (E : Env) (t f : String) : Option String :=
  let f1 := if f = "" then "2006-01-02 15:04" else f
  match parseTime E t with
  | none => none
  | some parsedTime => some (parsedTime.Format f1)

/-- Embedding of `weekday(t)`: the zero weekday comes with an error. -/
def weekday (E : Env) (t : String) : Nat × Bool :=
  match parseTime E t with
  | none => (0, false)
  | some parsedTime => (parsedTime.Weekday, true)

/-- Embedding of `holidays(t)`: the countries where the day is a holiday, and
whether the timestamp parsed. -/
def holidays (E : Env) (t : String) : List String × Bool :=
  match parseTime E t with
  | none => ([], false)
  | some parsedTime =>
    let c1 := if E.cals.cUK.IsHoliday (parsedTime.dayNum : Int) then ["UK"] else []
    let c2 := if E.cals.cUS.IsHoliday (parsedTime.dayNum : Int) then c1 ++ ["US"] else c1
    let c3 := if E.cals.cSG.IsHoliday (parsedTime.dayNum : Int) then c2 ++ ["SG"] else c2
    (c3, true)

/-! ## The reports of main.go -/

/-- The formatted start of an entry, or the raw text when it does not parse. -/
def startText (E : Env) (start f : String) : String :=
  match convertTime E start f with
  | some s => s
  | none => start

/-- Loop body of `shiftSchedule`, over the entries. -/
def scheduleRows (E : Env) (shift : String) : List (Option scheduleEntry) → Outcome (List Row)
  | [] => .done []
  | p :: rest =>
    (deref p).bind fun entry =>
    let start := startText E entry.Start ""
    let day := (weekday E entry.Start).1
    let holiday := (holidays E entry.Start).1
    (deref entry.EntryUser).bind fun user =>
    (scheduleRows E shift rest).bind fun rows =>
    .done ([Cell.str start, Cell.str (weekdayString day), Cell.str user.Name, Cell.str shift,
        Cell.str (", ".intercalate holiday)] :: rows)

/-- Embedding of `shiftSchedule`. -/
def shiftSchedule (E : Env) (getSchedule : Fetcher)
    (shift shiftID startdate enddate token : String) : Outcome Table :=
  match getSchedule shift shiftID startdate enddate token with
  | .error _ => .fatal
  | .ok schedule =>
    (deref schedule.PagerdutySchedule).bind fun ps =>
    (deref ps.FinalSchedule).bind fun fs =>
    (scheduleRows E shift fs.RenderedScheduleEntries).bind fun data =>
    .done ⟨[Cell.str "START", Cell.str "DAY", Cell.str "ENGINEER", Cell.str "SHIFT",
      Cell.str "HOLIDAY"], data⟩

/-- The statement `m[user][field]++` on a `map[string]map[string]uint`. -/
def bump (m : GoMap (GoMap Nat)) (user field : String) : GoMap (GoMap Nat) :=
  let inner := (GoMap.get m user).getD []
  GoMap.set m user (GoMap.set inner field ((GoMap.getNat inner field + 1) % uintMod))

/-- One pass of the first loop of `shiftReport`. -/
def reportStep (E : Env) (parsedSchedule : GoMap (GoMap Nat)) (p : Option scheduleEntry) :
    Outcome (GoMap (GoMap Nat)) :=
  (deref p).bind fun entry =>
  (deref entry.EntryUser).bind fun user =>
  let m0 := if (GoMap.get parsedSchedule user.Name).isNone
    then GoMap.set parsedSchedule user.Name [] else parsedSchedule
  let m1 := bump m0 user.Name "oncall"
  let day := (weekday E entry.Start).1
  let m2 := if day = 0 ∨ day = 6 then bump m1 user.Name "weekends" else m1
  let holiday := (holidays E entry.Start).1
  let m3 := if holiday.length > 0 then bump m2 user.Name "holidays" else m2
  .done m3

/-- The first loop of `shiftReport`. -/
def reportLoop (E : Env) : GoMap (GoMap Nat) → List (Option scheduleEntry) →
    Outcome (GoMap (GoMap Nat))
  | m, [] => .done m
  | m, p :: rest => (reportStep E m p).bind fun m1 => reportLoop E m1 rest

/-- The row `shiftReport` builds for one user. -/
def reportRow (shift : String) (kv : String × GoMap Nat) : Row :=
  [Cell.str kv.1, Cell.str shift, Cell.uint (GoMap.getNat kv.2 "weekends"),
    Cell.uint (GoMap.getNat kv.2 "holidays"), Cell.uint (GoMap.getNat kv.2 "oncall")]

/-- Embedding of `shiftReport`. -/
def shiftReport (E : Env) (getSchedule : Fetcher)
    (shift shiftID startdate enddate token : String) : Outcome Table :=
  match getSchedule shift shiftID startdate enddate token with
  | .error _ => .fatal
  | .ok schedule =>
    (deref schedule.PagerdutySchedule).bind fun ps =>
    (deref ps.FinalSchedule).bind fun fs =>
    (reportLoop E [] fs.RenderedScheduleEntries).bind fun parsedSchedule =>
    let data := (E.range parsedSchedule).map (reportRow shift)
    .done ⟨[Cell.str "ENGINEER", Cell.str "SHIFT", Cell.str "WEEKEND", Cell.str "HOLIDAY",
      Cell.str "TOTAL"], E.sortSlice lessByTotalDesc data⟩

/-- The goroutine of `shiftNow` for one shift: the rows it will append. -/
def nowWorker (getSchedule : Fetcher) (token : String) (w : String × String) :
    Outcome (List Row) :=
  match getSchedule w.1 w.2 "" "" token with
  | .error _ => .done []
  | .ok schedule =>
    (deref schedule.PagerdutySchedule).bind fun ps =>
    (match ps.Oncall with
      | some oc => (deref oc.EntryUser).bind fun user => .done user.Name
      | none => .done "").bind fun name =>
    .done [[Cell.str w.1, Cell.str name]]

/-- Embedding of `shiftNow`; `sched` is the order in which the workers get the
mutex. -/
def shiftNow (E : Env) (getSchedule : Fetcher) (shifts : GoMap String) (token : String)
    (sched : List Nat) : Outcome Table :=
  (collect ((E.range shifts).map (nowWorker getSchedule token))).bind fun queues =>
  let data := interleave queues sched
  .done ⟨[Cell.str "SHIFT", Cell.str "ENGINEER"], E.sortSlice lessByFirst data⟩

/-- One locked update of `shiftsRoster`: the start, the weekday, the shift and
the engineer. -/
structure RosterWrite where
  start : String
  day : String
  shift : String
  name : String
  deriving DecidableEq, Repr

/-- The critical section of `shiftsRoster`. -/
def rosterApply (rawData : GoMap (GoMap String)) (e : RosterWrite) : GoMap (GoMap String) :=
  let m0 := if (GoMap.get rawData e.start).isNone
    then GoMap.set rawData e.start [] else rawData
  let inner := (GoMap.get m0 e.start).getD []
  GoMap.set m0 e.start (GoMap.set (GoMap.set inner "day" e.day) e.shift e.name)

/-- The entries loop of a `shiftsRoster` goroutine: its updates, in order. -/
def rosterWrites (E : Env) (shift : String) : List (Option scheduleEntry) → Outcome (List RosterWrite)
  | [] => .done []
  | p :: rest =>
    (deref p).bind fun entry =>
    let start := startText E entry.Start ""
    let day := (weekday E entry.Start).1
    (deref entry.EntryUser).bind fun user =>
    (rosterWrites E shift rest).bind fun ws =>
    .done (⟨start, weekdayString day, shift, user.Name⟩ :: ws)

/-- The goroutine of `shiftsRoster` for one shift. -/
def rosterWorker (E : Env) (getSchedule : Fetcher) (startdate enddate token : String)
    (w : String × String) : Outcome (List RosterWrite) :=
  match getSchedule w.1 w.2 startdate enddate token with
  | .error _ => .done []
  | .ok schedule =>
    (deref schedule.PagerdutySchedule).bind fun ps =>
    (deref ps.FinalSchedule).bind fun fs =>
    rosterWrites E w.1 fs.RenderedScheduleEntries

/-- The row `shiftsRoster` builds from one key of `rawData`. -/
def rosterRow (kv : String × GoMap String) : Row :=
  [Cell.str kv.1, Cell.str (GoMap.getStr kv.2 "day")]

/-- Embedding of `shiftsRoster`; `sched` is the order in which the workers get
the mutex. -/
def shiftsRoster (E : Env) (getSchedule : Fetcher) (shifts : GoMap String)
    (startdate enddate token : String) (sched : List Nat) : Outcome Table :=
  (collect ((E.range shifts).map (rosterWorker E getSchedule startdate enddate token))).bind
    fun queues =>
  let rawData := (interleave queues sched).foldl rosterApply []
  let data := (E.range rawData).map rosterRow
  .done ⟨[Cell.str "START", Cell.str "DAY"], E.sortSlice lessByFirst data⟩

/-- What a goroutine of `shiftsUser` does to the shared variables: the write of
`userName`, or one locked append to `data`. -/
inductive UserWrite where
  | setName : String → UserWrite
  | append : Row → UserWrite
  deriving DecidableEq, Repr

/-- The search loop of `shiftsUser` over `Users`: the first user whose lowered
name contains the fragment. -/
def findUser (E : Env) (name : String) : List (Option entryUser) → Outcome (Option entryUser)
  | [] => .done none
  | p :: rest =>
    (deref p).bind fun u =>
    if E.Contains (E.ToLower u.Name) name = true then .done (some u) else findUser E name rest

/-- The entries loop of a `shiftsUser` goroutine. -/
def userWrites (E : Env) (shift userID : String) : List (Option scheduleEntry) → Outcome (List UserWrite)
  | [] => .done []
  | p :: rest =>
    (deref p).bind fun entry =>
    (deref entry.EntryUser).bind fun user =>
    (userWrites E shift userID rest).bind fun ws =>
    if user.ID = userID then
      let start := startText E entry.Start ""
      let day := (weekday E entry.Start).1
      .done (UserWrite.append [Cell.str start, Cell.str (weekdayString day), Cell.str shift] :: ws)
    else .done ws

/-- The goroutine of `shiftsUser` for one shift; `name` is already lowered. -/
def userWorker (E : Env) (getSchedule : Fetcher) (name startdate enddate token : String)
    (w : String × String) : Outcome (List UserWrite) :=
  match getSchedule w.1 w.2 startdate enddate token with
  | .error _ => .done []
  | .ok schedule =>
    (deref schedule.PagerdutySchedule).bind fun ps =>
    (findUser E name ps.Users).bind fun found =>
    match found with
    | none => .done []
    | some u =>
      if u.ID = "" then .done [UserWrite.setName u.Name]
      else
        (deref ps.FinalSchedule).bind fun fs =>
        (userWrites E w.1 u.ID fs.RenderedScheduleEntries).bind fun ws =>
        .done (UserWrite.setName u.Name :: ws)

/-- The shared variables `userName` and `data` after one write. -/
def userApply (st : String × List Row) (e : UserWrite) : String × List Row :=
  match e with
  | .setName n => (n, st.2)
  | .append r => (st.1, st.2 ++ [r])

/-- What `shiftsUser` prints: the name after "Schedule for" and the table. -/
structure UserReport where
  userName : String
  table : Table
  deriving DecidableEq, Repr

/-- Embedding of `shiftsUser`; `sched` is the order in which the workers write. -/
def shiftsUser (E : Env) (getSchedule : Fetcher) (shifts : GoMap String)
    (name startdate enddate token : String) (sched : List Nat) : Outcome UserReport :=
  let name1 := E.ToLower name
  (collect ((E.range shifts).map (userWorker E getSchedule name1 startdate enddate token))).bind
    fun queues =>
  let st := (interleave queues sched).foldl userApply ("", [])
  .done ⟨st.1, ⟨[Cell.str "Start", Cell.str "Day", Cell.str "Shift"],
    E.sortSlice lessByFirst st.2⟩⟩

/-- The entries loop of `sprintPoints`. -/
def sprintEntries (ids : GoMap Unit) : GoMap Nat → List (Option scheduleEntry) →
    Outcome (GoMap Nat)
  | m, [] => .done m
  | m, p :: rest =>
    (deref p).bind fun entry =>
    (deref entry.EntryUser).bind fun user =>
    if (GoMap.get ids user.ID).isNone then sprintEntries ids m rest
    else sprintEntries ids (GoMap.set m user.Name ((GoMap.getNat m user.Name + 1) % uintMod)) rest

/-- The shifts loop of `sprintPoints`. -/
def sprintShifts (getSchedule : Fetcher) (ids : GoMap Unit) (startdate enddate token : String) :
    GoMap Nat → List (String × String) → Outcome (GoMap Nat)
  | m, [] => .done m
  | m, w :: rest =>
    match getSchedule w.1 w.2 startdate enddate token with
    | .error _ => sprintShifts getSchedule ids startdate enddate token m rest
    | .ok schedule =>
      (deref schedule.PagerdutySchedule).bind fun ps =>
      (deref ps.FinalSchedule).bind fun fs =>
      (sprintEntries ids m fs.RenderedScheduleEntries).bind fun m1 =>
      sprintShifts getSchedule ids startdate enddate token m1 rest

/-- The row `sprintPoints` builds for one user. -/
def sprintRow (E : Env) (sprintDays : Nat) (kv : String × Nat) : Row :=
  let offShiftDays := (sprintDays + uintMod - kv.2) % uintMod
  let suggestedSP := storyPoints offShiftDays
  [Cell.str kv.1, Cell.str (toString kv.2), Cell.str (toString offShiftDays),
    Cell.str (E.sprintfTactical kv.2 sprintDays), Cell.str (toString suggestedSP)]

/-- What `sprintPoints` prints: the number of business days and the table. -/
structure SprintReport where
  sprintDays : Nat
  table : Table
  deriving DecidableEq, Repr

/-- Embedding of `sprintPoints`; `fuel` bounds the loop of `workDays`. -/
def sprintPoints (E : Env) (getSchedule : Fetcher) (fuel : Nat) (shifts : GoMap String)
    (startdate enddate token : String) : Outcome SprintReport :=
  let ids : GoMap Unit := []
  (workDays E.cals.cUK fuel startdate enddate).bind fun sprintDays =>
  (sprintShifts getSchedule ids startdate enddate token [] (E.range shifts)).bind
    fun parsedSchedule =>
  let data := (E.range parsedSchedule).map (sprintRow E sprintDays)
  .done ⟨sprintDays, ⟨[Cell.str "engineer", Cell.str "oncall days", Cell.str "off shift days",
    Cell.str "tactical %", Cell.str "suggested SP"], E.sortSlice lessByFirst data⟩⟩

/-- Go's `int` after an overflowing operation. -/
def wrapInt (x : Int) : Int := (x + 2 ^ 63) % 2 ^ 64 - 2 ^ 63

/-- The local variables of `OpsRoster` that its loops update. -/
structure OpsState where
  rawData : GoMap (GoMap String)
  users : GoMap (GoMap Int)
  totalBAU : Nat
  totalOPS : Nat
  total : Nat
  deriving DecidableEq, Repr

/-- The body of the entries loop of `OpsRoster` past the membership test. -/
def opsRecord (E : Env) (st : OpsState) (shift : String) (entry : scheduleEntry) (user : entryUser) :
    OpsState :=
  let inner := (GoMap.get st.users user.Name).getD []
  let users1 := GoMap.set st.users user.Name
    (GoMap.set inner shift (wrapInt ((GoMap.get inner shift).getD 0 + 1)))
  let total1 := roundF32 (st.total + 1)
  let totalOPS1 := if shift = "OPS" then roundF32 (st.totalOPS + 1) else st.totalOPS
  let totalBAU1 := if shift = "OPS" then st.totalBAU else roundF32 (st.totalBAU + 1)
  let start := startText E entry.Start "2006-01-02"
  let day := (weekday E entry.Start).1
  let row0 := (GoMap.get st.rawData start).getD []
  let row1 := GoMap.set row0 "day" (weekdayString day)
  let row2 :=
    match GoMap.get row1 user.Name with
    | some old => GoMap.set row1 user.Name (old ++ ", " ++ shift)
    | none => GoMap.set row1 user.Name shift
  ⟨GoMap.set st.rawData start row2, users1, totalBAU1, totalOPS1, total1⟩

/-- The entries loop of `OpsRoster`. -/
def opsEntries (E : Env) (ids : GoMap Unit) (shift : String) : OpsState → List (Option scheduleEntry) →
    Outcome OpsState
  | st, [] => .done st
  | st, p :: rest =>
    (deref p).bind fun entry =>
    (deref entry.EntryUser).bind fun user =>
    if (GoMap.get ids user.ID).isNone then opsEntries E ids shift st rest
    else opsEntries E ids shift (opsRecord E st shift entry user) rest

/-- The shifts loop of `OpsRoster`. -/
def opsShifts (E : Env) (getSchedule : Fetcher) (ids : GoMap Unit) (startdate enddate token : String) :
    OpsState → List (String × String) → Outcome OpsState
  | st, [] => .done st
  | st, w :: rest =>
    match getSchedule w.1 w.2 startdate enddate token with
    | .error _ => opsShifts E getSchedule ids startdate enddate token st rest
    | .ok schedule =>
      (deref schedule.PagerdutySchedule).bind fun ps =>
      (deref ps.FinalSchedule).bind fun fs =>
      (opsEntries E ids w.1 st fs.RenderedScheduleEntries).bind fun st1 =>
      opsShifts E getSchedule ids startdate enddate token st1 rest

/-- The row of the first table of `OpsRoster` for one date. -/
def opsRow (usersKeys : List String) (kv : String × GoMap String) : Row :=
  [Cell.str kv.1, Cell.str (GoMap.getStr kv.2 "day")] ++
    usersKeys.map (fun u => Cell.str (GoMap.getStr kv.2 u))

/-- The row of the second table of `OpsRoster` for one user. -/
def opsShareRow (E : Env) (st : OpsState) (u : String) : Row :=
  let mine := (GoMap.get st.users u).getD []
  let ops := (GoMap.get mine "OPS").getD 0
  let bau := (GoMap.get mine "BAU").getD 0
  let uTotal := wrapInt (ops + bau)
  [Cell.str u, Cell.int ops, Cell.str (E.sprintfShare ops st.totalOPS),
    Cell.int bau, Cell.str (E.sprintfShare bau st.totalBAU),
    Cell.int uTotal, Cell.str (E.sprintfShare uTotal st.total)]

/-- Embedding of `OpsRoster`: the two tables it prints. -/
def OpsRoster (E : Env) (getSchedule : Fetcher) (shifts : GoMap String)
    (startdate enddate token : String) : Outcome (Table × Table) :=
  let ids : GoMap Unit := []
  (opsShifts E getSchedule ids startdate enddate token ⟨[], [], 0, 0, 0⟩ (E.range shifts)).bind
    fun st =>
  let usersKeys :=
    (E.sortSlice lessByFirst ((E.range st.users).map (fun kv => [Cell.str kv.1]))).map Row.key
  let data := (E.range st.rawData).map (opsRow usersKeys)
  let fields := [Cell.str "DATE", Cell.str "DAY"] ++ usersKeys.map Cell.str
  let data2 := usersKeys.map (opsShareRow E st)
  .done (⟨fields, E.sortSlice lessByFirst data⟩,
    ⟨[Cell.str "user", Cell.str "# ops", Cell.str "% ops", Cell.str "# bau", Cell.str "% bau",
      Cell.str "# tactical", Cell.str "% tactical"], data2⟩)

/-! ## A concrete environment -/

/-- Visiting a map in the order of its list. -/
def rangeInOrder {ν : Type} (m : GoMap ν) : GoMap ν := m

/-- Lower case of the letters A to Z. -/
def asciiToLower (s : String) : String := String.mk (s.data.map Char.toLower)

/-- Whether `sub` occurs in `s`. -/
def asciiContains (s sub : String) : Bool := decide (List.IsInfix sub.data s.data)

/-- An environment to run the reports in: `parseRFC3339`, insertion sort, maps
visited in list order, calendars that hold New Year's Day 2024 (day 739251) for the United
Kingdom and the United States, and percentages left unprinted. -/
def goEnv : Env where
  Parse := parseRFC3339
  sortSlice := insertionSortLessFunc
  range := rangeInOrder
  ToLower := asciiToLower
  Contains := asciiContains
  cals := ⟨⟨fun d => decide (d = 739251)⟩, ⟨fun d => decide (d = 739251)⟩, ⟨fun _ => false⟩⟩
  sprintfTactical := fun _ _ => ""
  sprintfShare := fun _ _ => ""

/-! ## Notions of the specification -/

/-- A response as the "now" report expects it: a schedule object whose on-call
object, when there is one, names a user. -/
def nowWellFormed (r : pagerdutyScheduleResponse) : Bool :=
  match r.PagerdutySchedule with
  | none => false
  | some ps =>
    match ps.Oncall with
    | none => true
    | some oc => oc.EntryUser.isSome

/-- Name of the engineer currently on call according to a response; empty when
nobody is. -/
def onCallName (r : pagerdutyScheduleResponse) : String :=
  match r.PagerdutySchedule with
  | none => ""
  | some ps =>
    match ps.Oncall with
    | none => ""
    | some oc =>
      match oc.EntryUser with
      | none => ""
      | some u => u.Name

/-- Whether the fetch of the "now" report for a shift fails. -/
def nowFetchFails (getSchedule : Fetcher) (token : String) (w : String × String) : Bool :=
  match getSchedule w.1 w.2 "" "" token with
  | .ok _ => false
  | .error _ => true

/-- The rows the "now" report owes one shift: the shift with its current
on-call engineer when the fetch succeeded, nothing when it failed. -/
def nowRows (getSchedule : Fetcher) (token : String) (w : String × String) : List Row :=
  match getSchedule w.1 w.2 "" "" token with
  | .ok r => [[Cell.str w.1, Cell.str (onCallName r)]]
  | .error _ => []

/-- An entry pointer that is set and whose entry names a user. -/
def entryWellFormed (p : Option scheduleEntry) : Bool :=
  match p with
  | none => false
  | some en => en.EntryUser.isSome

/-- A response as the entry reports expect it, following the data model of the
specification: a schedule with a final schedule, in which every entry names a
user. -/
def entriesWellFormed (r : pagerdutyScheduleResponse) : Bool :=
  match r.PagerdutySchedule with
  | none => false
  | some ps =>
    match ps.FinalSchedule with
    | none => false
    | some fs => fs.RenderedScheduleEntries.all entryWellFormed

/-- The schedule entries a response carries. -/
def entriesOf (r : pagerdutyScheduleResponse) : List scheduleEntry :=
  match r.PagerdutySchedule with
  | none => []
  | some ps =>
    match ps.FinalSchedule with
    | none => []
    | some fs => fs.RenderedScheduleEntries.filterMap id

/-- Whether the start of every entry of a response parses. -/
def startsParse (E : Env) (r : pagerdutyScheduleResponse) : Bool :=
  (entriesOf r).all (fun en => (parseTime E en.Start).isSome)

/-- The user name of an entry; empty when the entry names no user. -/
def entryName (en : scheduleEntry) : String :=
  match en.EntryUser with
  | some u => u.Name
  | none => ""

/-- The update the roster owes one entry of a shift. -/
def rosterWriteOf (E : Env) (shift : String) (en : scheduleEntry) : RosterWrite :=
  ⟨startText E en.Start "", weekdayString (weekday E en.Start).1, shift, entryName en⟩

/-- The updates the roster owes one shift: one per entry when the fetch
succeeded, none when it failed. -/
def rosterOwed (E : Env) (getSchedule : Fetcher) (startdate enddate token : String)
    (w : String × String) : List RosterWrite :=
  match getSchedule w.1 w.2 startdate enddate token with
  | .ok r => (entriesOf r).map (rosterWriteOf E w.1)
  | .error _ => []

/-- A response as the user report expects it: well-formed entries and no nil
pointer in the list of users. -/
def usersWellFormed (r : pagerdutyScheduleResponse) : Bool :=
  entriesWellFormed r &&
    (match r.PagerdutySchedule with
     | none => false
     | some ps => ps.Users.all Option.isSome)

/-- The users a response lists. -/
def usersOf (r : pagerdutyScheduleResponse) : List entryUser :=
  match r.PagerdutySchedule with
  | none => []
  | some ps => ps.Users.filterMap id

/-- The user id of an entry; empty when the entry names no user. -/
def entryUserID (en : scheduleEntry) : String :=
  match en.EntryUser with
  | some u => u.ID
  | none => ""

/-- The row the user report owes one entry of a shift. -/
def userRowOf (E : Env) (shift : String) (en : scheduleEntry) : Row :=
  [Cell.str (startText E en.Start ""), Cell.str (weekdayString (weekday E en.Start).1),
    Cell.str shift]

/-- The rows the user report owes one shift: the entries of the first listed
user whose lowered name contains the (lowered) fragment, when the fetch
succeeded and that user has an id. -/
def userRowsOwed (E : Env) (getSchedule : Fetcher) (name startdate enddate token : String)
    (w : String × String) : List Row :=
  match getSchedule w.1 w.2 startdate enddate token with
  | .error _ => []
  | .ok r =>
    match (usersOf r).find? (fun u => E.Contains (E.ToLower u.Name) (E.ToLower name)) with
    | none => []
    | some u =>
      if u.ID = "" then []
      else ((entriesOf r).filter (fun en => entryUserID en = u.ID)).map (userRowOf E w.1)

/-- The row a write of `shiftsUser` appends, if it appends one. -/
def UserWrite.row? : UserWrite → Option Row
  | .setName _ => none
  | .append r => some r

/-- Whether an entry starts on a Saturday or a Sunday. -/
def startsOnWeekend (E : Env) (en : scheduleEntry) : Bool :=
  match parseTime E en.Start with
  | some tm => tm.Weekday = 6 ∨ tm.Weekday = 0
  | none => false

/-- Whether the holiday set of the start of an entry is non-empty: the day is a
holiday of at least one of the three calendars. -/
def startsOnHoliday (E : Env) (en : scheduleEntry) : Bool :=
  match parseTime E en.Start with
  | some tm =>
    E.cals.cUK.IsHoliday (tm.dayNum : Int) || E.cals.cUS.IsHoliday (tm.dayNum : Int) ||
      E.cals.cSG.IsHoliday (tm.dayNum : Int)
  | none => false

/-- Number of entries of a user that satisfy a condition. -/
def countFor (p : scheduleEntry → Bool) (entries : List scheduleEntry) (name : String) : Nat :=
  (entries.filter (fun en => decide (entryName en = name) && p en)).length

/-- The row the per-user report owes a user: name, shift, WEEKEND, HOLIDAY, TOTAL. -/
def reportRowOwed (E : Env) (shift : String) (entries : List scheduleEntry)
    (name : String) : Row :=
  [Cell.str name, Cell.str shift, Cell.uint (countFor (startsOnWeekend E) entries name),
    Cell.uint (countFor (startsOnHoliday E) entries name),
    Cell.uint (countFor (fun _ => true) entries name)]

/-- The counter `m[user][field]` of a `map[string]map[string]uint`. -/
def cnt (m : GoMap (GoMap Nat)) (user field : String) : Nat :=
  GoMap.getNat ((GoMap.get m user).getD []) field

/-- What the counters of `shiftReport` hold after the entries `seen`: one key per
user name seen, and under it the three counts, as `uint`. -/
def ReportInv (E : Env) (m : GoMap (GoMap Nat)) (seen : List scheduleEntry) : Prop :=
  (m.map Prod.fst).Nodup ∧
  (∀ k, k ∈ m.map Prod.fst ↔ ∃ en ∈ seen, entryName en = k) ∧
  ∀ u, cnt m u "oncall" = countFor (fun _ => true) seen u % uintMod ∧
    cnt m u "weekends" = countFor (startsOnWeekend E) seen u % uintMod ∧
    cnt m u "holidays" = countFor (startsOnHoliday E) seen u % uintMod

/-! ## Example data -/

/-- An engineer. -/
def ann : entryUser := ⟨"PANN", "Ann Lee"⟩

/-- Another engineer. -/
def bob : entryUser := ⟨"PBOB", "Bob Ray"⟩

/-- A response with one entry for `u`, starting on Saturday 2024-01-06, and `u`
on call. -/
def saturdayOf (u : entryUser) : pagerdutyScheduleResponse :=
  ⟨some ⟨some ⟨[some ⟨"2024-01-06T00:00:00Z", "2024-01-07T00:00:00Z", some u⟩]⟩,
    some ⟨some u⟩, [some u]⟩⟩

/-- Three shifts. -/
def demoShifts : GoMap String := [("sfo", "P2"), ("lhr", "P1"), ("sin", "P3")]

/-- The network when `lhr` answers with Ann, `sfo` with Bob, and any other call fails. -/
def demoFetch : Fetcher := fun call _ _ _ _ =>
  if call = "lhr" then .ok (saturdayOf ann)
  else if call = "sfo" then .ok (saturdayOf bob)
  else .error "500 Internal Server Error"

/-- Two shifts, one of them named "day". -/
def dayShifts : GoMap String := [("day", "P1"), ("sfo", "P2")]

/-- The network when `day` answers with Ann and `sfo` with Bob. -/
def dayFetch : Fetcher := fun call _ _ _ _ =>
  if call = "day" then .ok (saturdayOf ann) else .ok (saturdayOf bob)

/-- Two shifts. -/
def twoShifts : GoMap String := [("lhr", "P1"), ("sfo", "P2")]

/-- The network when every shift answers with Ann on the same Saturday. -/
def annFetch : Fetcher := fun _ _ _ _ _ => .ok (saturdayOf ann)

/-- Ann on New Year's Day (a Monday and a holiday), on a Saturday and on a
Wednesday; Bob on a Tuesday. -/
def weekOfAnn : pagerdutyScheduleResponse :=
  ⟨some ⟨some ⟨[some ⟨"2024-01-01T09:00:00Z", "2024-01-02T09:00:00Z", some ann⟩,
      some ⟨"2024-01-02T09:00:00Z", "2024-01-03T09:00:00Z", some bob⟩,
      some ⟨"2024-01-06T09:00:00Z", "2024-01-07T09:00:00Z", some ann⟩,
      some ⟨"2024-01-10T09:00:00Z", "2024-01-11T09:00:00Z", some ann⟩]⟩,
    some ⟨some ann⟩, [some ann, some bob]⟩⟩

/-- The network when every call is answered with `weekOfAnn`. -/
def weekFetch : Fetcher := fun _ _ _ _ _ => .ok weekOfAnn

/-- The network when every call is answered with the JSON body `{}`. -/
def emptyBodyFetch : Fetcher := fun _ _ _ _ _ => .ok ⟨none⟩

/-- The network when every call is answered with `{"schedule": {"oncall": {}}}`. -/
def noUserFetch : Fetcher := fun _ _ _ _ _ => .ok ⟨some ⟨none, some ⟨none⟩, []⟩⟩

/-- The network when `lhr` answers with Ann and every other call is answered
with `{"schedule": {"oncall": {}}}`: no fetch fails, and every response carries
a schedule object. -/
def halfFetch : Fetcher := fun call _ _ _ _ =>
  if call = "lhr" then .ok (saturdayOf ann) else .ok ⟨some ⟨none, some ⟨none⟩, []⟩⟩

/-- A response with two entries whose starts parse: Ann on New Year's Day, and
an entry whose `user` is null. -/
def orphanWeek : pagerdutyScheduleResponse :=
  ⟨some ⟨some ⟨[some ⟨"2024-01-01T09:00:00Z", "2024-01-02T09:00:00Z", some ann⟩,
      some ⟨"2024-01-02T09:00:00Z", "2024-01-03T09:00:00Z", none⟩]⟩,
    none, [some ann]⟩⟩

/-- The network when every call is answered with `orphanWeek`. -/
def orphanFetch : Fetcher := fun _ _ _ _ _ => .ok orphanWeek

/-! # Theorems -/

theorem digitVal_le {c : Char} {v : Nat} (h : digitVal c = some v) : v ≤ 9 := by
  unfold digitVal at h
  split at h
  · injection h with h; omega
  · cases h

theorem daysIn_le (y m : Nat) : daysIn y m ≤ 31 := by
  unfold daysIn; split_ifs <;> omega

theorem daysBeforeMonth_le (y m : Nat) (hm : m ≤ 12) : daysBeforeMonth y m ≤ 31 * 11 := by
  unfold daysBeforeMonth
  have : ∀ k, ((List.range k).map (fun i => daysIn y (i + 1))).sum ≤ 31 * k := by
    intro k
    induction k with
    | zero => simp
    | succ k ih =>
      rw [List.range_succ, List.map_append, List.sum_append]
      have := daysIn_le y (k + 1)
      simp
      omega
  have := this (m - 1)
  omega

theorem parseDate_lt {s : String} {t : Nat} (h : parseDate s = some t) : t < 3660000 := by
  unfold parseDate at h
  split at h
  · split at h
    · rename_i a b c d e f g hh ha hb hc hd he hf hg hhh
      simp only at h
      split at h
      · injection h with h
        rename_i hcond
        have := digitVal_le ha
        have := digitVal_le hb
        have := digitVal_le hc
        have := digitVal_le hd
        have hm := daysBeforeMonth_le (1000 * a + 100 * b + 10 * c + d) (10 * e + f) hcond.2.1
        have hdd := daysIn_le (1000 * a + 100 * b + 10 * c + d) (10 * e + f)
        rw [← h]
        unfold dayNumber daysBeforeYear
        omega
      · cases h
    · cases h
  · cases h


theorem absOfDay_eq {d : Nat} (h : d ≤ 3660000) :
    absOfDay d = (absoluteZeroDays + d) * 86400 := by
  unfold absOfDay absoluteZeroDays
  exact Nat.mod_eq_of_lt (by norm_num; omega)

theorem addDay_absOfDay {d : Nat} (h : d < 3660000) : addDay (absOfDay d) = absOfDay (d + 1) := by
  rw [absOfDay_eq (by omega), absOfDay_eq (by omega)]
  unfold addDay absoluteZeroDays
  rw [Nat.mod_eq_of_lt (by norm_num; omega)]
  ring

theorem absWeekday_absOfDay {d : Nat} (h : d ≤ 3660000) :
    absWeekday (absOfDay d) = weekdayOfDay d := by
  rw [absOfDay_eq h]
  unfold absWeekday weekdayOfDay absoluteZeroDays
  have hw : ((106751990353566 + d) * 86400 + 86400) % 2 ^ 64
      = (106751990353566 + d) * 86400 + 86400 := Nat.mod_eq_of_lt (by norm_num; omega)
  rw [hw]
  omega

theorem absCivilDay_absOfDay {d : Nat} (h : d ≤ 3660000) :
    absCivilDay (absOfDay d) = (d : Int) := by
  rw [absOfDay_eq h]
  unfold absCivilDay
  rw [Nat.mul_div_cancel _ (by norm_num)]
  push_cast
  ring

theorem absOfDay_inj {a b : Nat} (ha : a ≤ 3660000) (hb : b ≤ 3660000)
    (h : absOfDay a = absOfDay b) : a = b := by
  rw [absOfDay_eq ha, absOfDay_eq hb] at h
  omega

theorem loop_cond_iff (cUK : Calendar) {d : Nat} (h : d ≤ 3660000) :
    (absWeekday (absOfDay d) ≠ 0 ∧ absWeekday (absOfDay d) ≠ 6 ∧
        ¬ cUK.IsHoliday (absCivilDay (absOfDay d)) = true) ↔
      isBusinessDay cUK d = true := by
  rw [absWeekday_absOfDay h, absCivilDay_absOfDay h]
  unfold isBusinessDay
  simp only [decide_eq_true_eq, Bool.not_eq_true]
  tauto

theorem workDaysLoop_succ (cUK : Calendar) (fuel t1 t2 n : Nat) :
    ∃ n1, workDaysLoop cUK (fuel + 1) t1 t2 n
      = if t2 = t1 then .done n1 else workDaysLoop cUK fuel (addDay t1) t2 n1 := by
  rw [workDaysLoop]
  exact ⟨_, rfl⟩

theorem workDaysLoop_succ_day (cUK : Calendar) (fuel d t2 n : Nat) (h : d ≤ 3660000) :
    workDaysLoop cUK (fuel + 1) (absOfDay d) t2 n
      = if t2 = absOfDay d
        then .done (if isBusinessDay cUK d = true then (n + 1) % uintMod else n)
        else workDaysLoop cUK fuel (addDay (absOfDay d)) t2
          (if isBusinessDay cUK d = true then (n + 1) % uintMod else n) := by
  rw [workDaysLoop]
  by_cases hb : isBusinessDay cUK d = true
  · rw [if_pos ((loop_cond_iff cUK h).2 hb), if_pos hb]
  · rw [if_neg (fun hc => hb ((loop_cond_iff cUK h).1 hc)), if_neg hb]

theorem workDaysLoop_done (cUK : Calendar) :
    ∀ (k fuel d n : Nat), d + k ≤ 3660000 → k + 1 ≤ fuel → n + k + 1 < uintMod →
      workDaysLoop cUK fuel (absOfDay d) (absOfDay (d + k)) n
        = .done (n + ((List.range' d (k + 1)).filter (isBusinessDay cUK)).length) := by
  intro k
  induction k with
  | zero =>
    intro fuel d n hd hf hn
    obtain ⟨f, rfl⟩ : ∃ f, fuel = f + 1 := ⟨fuel - 1, by omega⟩
    have hmod : (n + 1) % uintMod = n + 1 := Nat.mod_eq_of_lt (by omega)
    rw [workDaysLoop_succ_day cUK f d _ n (by omega),
      if_pos (show absOfDay (d + 0) = absOfDay d from rfl), hmod]
    by_cases hb : isBusinessDay cUK d = true
    · simp [hb, List.range', List.filter]
    · simp [hb, List.range', List.filter]
  | succ k ih =>
    intro fuel d n hd hf hn
    obtain ⟨f, rfl⟩ : ∃ f, fuel = f + 1 := ⟨fuel - 1, by omega⟩
    have hne : ¬ (absOfDay (d + (k + 1)) = absOfDay d) := by
      intro h
      have := absOfDay_inj (by omega) (by omega) h
      omega
    have hshift : d + (k + 1) = (d + 1) + k := by omega
    have hmod : (n + 1) % uintMod = n + 1 := Nat.mod_eq_of_lt (by omega)
    rw [workDaysLoop_succ_day cUK f d _ n (by omega), if_neg hne, hmod,
      addDay_absOfDay (by omega), List.range'_succ d (k + 1)]
    by_cases hb : isBusinessDay cUK d = true
    · rw [if_pos hb, hshift, ih f (d + 1) (n + 1) (by omega) (by omega) (by omega),
        List.filter_cons_of_pos hb]
      simp only [List.length_cons]
      congr 1
      omega
    · rw [if_neg hb, hshift, ih f (d + 1) n (by omega) (by omega) (by omega),
        List.filter_cons_of_neg hb]

/-- While the exit test fails the loop goes on: without fuel for it, no result. -/
theorem workDaysLoop_short (cUK : Calendar) (t2 : Nat) :
    ∀ (fuel t1 n : Nat), (∀ k, k < fuel → addDay^[k] t1 ≠ t2) →
      workDaysLoop cUK fuel t1 t2 n = .outOfFuel := by
  intro fuel
  induction fuel with
  | zero => intro t1 n _; rfl
  | succ f ih =>
    intro t1 n h
    obtain ⟨n1, hstep⟩ := workDaysLoop_succ cUK f t1 t2 n
    have hne : ¬ (t2 = t1) := fun e => h 0 (by omega) e.symm
    rw [hstep, if_neg hne]
    exact ih (addDay t1) n1 (fun k hk => by
      have := h (k + 1) (by omega)
      rwa [Function.iterate_succ_apply] at this)

/-- The loop returns at the first step at which the exit test holds. -/
theorem workDaysLoop_returns (cUK : Calendar) (t2 : Nat) :
    ∀ (steps fuel t1 n : Nat), addDay^[steps] t1 = t2 → steps + 1 ≤ fuel →
      ∃ n1, workDaysLoop cUK fuel t1 t2 n = .done n1 := by
  intro steps
  induction steps with
  | zero =>
    intro fuel t1 n h hf
    obtain ⟨f, rfl⟩ : ∃ f, fuel = f + 1 := ⟨fuel - 1, by omega⟩
    obtain ⟨n1, hstep⟩ := workDaysLoop_succ cUK f t1 t2 n
    simp only [Function.iterate_zero, id] at h
    exact ⟨n1, by rw [hstep, if_pos h.symm]⟩
  | succ k ih =>
    intro fuel t1 n h hf
    obtain ⟨f, rfl⟩ : ∃ f, fuel = f + 1 := ⟨fuel - 1, by omega⟩
    obtain ⟨n1, hstep⟩ := workDaysLoop_succ cUK f t1 t2 n
    rw [Function.iterate_succ_apply] at h
    by_cases he : t2 = t1
    · exact ⟨n1, by rw [hstep, if_pos he]⟩
    · obtain ⟨n2, h2⟩ := ih f (addDay t1) n1 h (by omega)
      exact ⟨n2, by rw [hstep, if_neg he, h2]⟩

theorem addDay_iterate (k t : Nat) : addDay^[k] t = if k = 0 then t else (t + 86400 * k) % 2 ^ 64 := by
  induction k generalizing t with
  | zero => simp
  | succ k ih =>
    rw [Function.iterate_succ_apply, ih]
    unfold addDay
    by_cases hk : k = 0
    · subst hk
      simp
    · simp only [hk, if_false, Nat.succ_ne_zero]
      rw [Nat.mod_add_mod]
      congr 1
      ring

/-- From a later day the count of seconds meets an earlier day again exactly
when the number of days added completes a multiple of `2 ^ 57`. -/
theorem wrap_meets_iff {d1 d2 k : Nat} (h1 : d1 ≤ 3660000) (hlt : d2 < d1) (hk : 0 < k) :
    addDay^[k] (absOfDay d1) = absOfDay d2 ↔ 2 ^ 57 ∣ k + (d1 - d2) := by
  have hk0 : ¬ k = 0 := by omega
  rw [addDay_iterate, if_neg hk0, absOfDay_eq h1, absOfDay_eq (by omega : d2 ≤ 3660000)]
  have hb : (absoluteZeroDays + d2) * 86400 < 2 ^ 64 := by
    unfold absoluteZeroDays
    norm_num
    omega
  have hsub : (absoluteZeroDays + d1) * 86400 + 86400 * k - (absoluteZeroDays + d2) * 86400
      = 2 ^ 7 * (675 * (k + (d1 - d2))) := by
    have : d1 = d2 + (d1 - d2) := by omega
    generalize d1 - d2 = j at this
    subst this
    norm_num
    ring_nf
    omega
  have hle : (absoluteZeroDays + d2) * 86400 ≤ (absoluteZeroDays + d1) * 86400 + 86400 * k := by
    have : (absoluteZeroDays + d2) * 86400 ≤ (absoluteZeroDays + d1) * 86400 :=
      Nat.mul_le_mul_right _ (by omega)
    omega
  have hcop : Nat.Coprime (2 ^ 57) 675 := Nat.Coprime.pow_left 57 (by decide)
  have hM : (2 : Nat) ^ 64 = 2 ^ 7 * 2 ^ 57 := by norm_num
  constructor
  · intro h
    have hmod : (absoluteZeroDays + d2) * 86400 ≡
        (absoluteZeroDays + d1) * 86400 + 86400 * k [MOD 2 ^ 64] := by
      unfold Nat.ModEq
      rw [h, Nat.mod_eq_of_lt hb]
    have hdvd := (Nat.modEq_iff_dvd' hle).1 hmod
    rw [hsub, hM] at hdvd
    have h2 := (Nat.mul_dvd_mul_iff_left (by norm_num : 0 < 2 ^ 7)).1 hdvd
    exact (Nat.Coprime.dvd_mul_left hcop).1 h2
  · intro h
    have h2 : 2 ^ 7 * 2 ^ 57 ∣ 2 ^ 7 * (675 * (k + (d1 - d2))) :=
      Nat.mul_dvd_mul_left _ (Dvd.dvd.mul_left h 675)
    rw [← hM, ← hsub] at h2
    have hmod := (Nat.modEq_iff_dvd' hle).2 h2
    unfold Nat.ModEq at hmod
    rw [← hmod, Nat.mod_eq_of_lt hb]

theorem parseDate_le {s : String} {t : Nat} (h : parseDate s = some t) : t ≤ 3660000 :=
  Nat.le_of_lt (parseDate_lt h)

theorem workDays_done (cUK : Calendar) (s1 s2 : String) (t1 t2 fuel : Nat)
    (h1 : parseDate s1 = some t1) (h2 : parseDate s2 = some t2) (hle : t1 ≤ t2)
    (hfuel : t2 + 1 - t1 ≤ fuel) :
    workDays cUK fuel s1 s2 = .done (businessDaysBetween cUK t1 t2) := by
  have hb2 := parseDate_lt h2
  have hU : uintMod = 18446744073709551616 := by norm_num [uintMod]
  have hk : t2 = t1 + (t2 - t1) := by omega
  have hlen : t2 + 1 - t1 = (t2 - t1) + 1 := by omega
  have hrun := workDaysLoop_done cUK (t2 - t1) fuel t1 0 (by omega) (by omega) (by omega)
  rw [← hk] at hrun
  simp only [workDays, h1, h2, hrun, businessDaysBetween, Nat.zero_add, hlen]

/-- How long `workDays` runs on two parsable dates: over an ordered range as many
iterations as it has days, from a later to an earlier day `2 ^ 57` less the
distance, and one more. -/
theorem workDays_fuel (cUK : Calendar) (s1 s2 : String) (t1 t2 fuel : Nat)
    (h1 : parseDate s1 = some t1) (h2 : parseDate s2 = some t2) :
    ((∃ n, workDays cUK fuel s1 s2 = .done n) ↔
      (if t1 ≤ t2 then t2 + 1 - t1 else 2 ^ 57 - (t1 - t2) + 1) ≤ fuel) ∧
    (¬ (if t1 ≤ t2 then t2 + 1 - t1 else 2 ^ 57 - (t1 - t2) + 1) ≤ fuel →
      workDays cUK fuel s1 s2 = .outOfFuel) := by
  have hb1 := parseDate_le h1
  have hb2 := parseDate_le h2
  have hrun : workDays cUK fuel s1 s2 = workDaysLoop cUK fuel (absOfDay t1) (absOfDay t2) 0 := by
    simp only [workDays, h1, h2]
  -- the number of additions before the exit test holds
  obtain ⟨steps, hsteps, hmeet, hbefore⟩ : ∃ steps,
      (if t1 ≤ t2 then t2 + 1 - t1 else 2 ^ 57 - (t1 - t2) + 1) = steps + 1 ∧
      addDay^[steps] (absOfDay t1) = absOfDay t2 ∧
      ∀ k, k < steps → addDay^[k] (absOfDay t1) ≠ absOfDay t2 := by
    by_cases hle : t1 ≤ t2
    · have hiter : ∀ k, t1 + k ≤ 3660000 → addDay^[k] (absOfDay t1) = absOfDay (t1 + k) := by
        intro k
        induction k with
        | zero => intro _; rfl
        | succ k ih =>
          intro hk
          rw [Function.iterate_succ_apply', ih (by omega), addDay_absOfDay (by omega)]
          rfl
      refine ⟨t2 - t1, by rw [if_pos hle]; omega, ?_, ?_⟩
      · rw [hiter _ (by omega)]
        congr 1
        omega
      · intro k hk heq
        rw [hiter _ (by omega)] at heq
        have := absOfDay_inj (by omega) hb2 heq
        omega
    · have hlt : t2 < t1 := by omega
      have hpow : (2 : Nat) ^ 57 = 144115188075855872 := by norm_num
      refine ⟨2 ^ 57 - (t1 - t2), by rw [if_neg hle], ?_, ?_⟩
      · rw [wrap_meets_iff hb1 hlt (by omega)]
        have : 2 ^ 57 - (t1 - t2) + (t1 - t2) = 2 ^ 57 := by omega
        rw [this]
      · intro k hk heq
        by_cases hk0 : k = 0
        · subst hk0
          simp only [Function.iterate_zero, id] at heq
          have := absOfDay_inj hb1 hb2 heq
          omega
        · have hd := (wrap_meets_iff hb1 hlt (by omega)).1 heq
          exact Nat.not_dvd_of_pos_of_lt (by omega) (by omega) hd
  rw [hsteps, hrun]
  constructor
  · constructor
    · rintro ⟨n, hn⟩
      by_contra hlt
      rw [workDaysLoop_short cUK _ fuel _ 0 (fun k hk => hbefore k (by omega))] at hn
      cases hn
    · intro hf
      exact workDaysLoop_returns cUK _ steps fuel _ 0 hmeet hf
  · intro hlt
    exact workDaysLoop_short cUK _ fuel _ 0 (fun k hk => hbefore k (by omega))

/-- C4: for parsable dates with the start on or before the end, and any fuel that
covers the days of the range, `workDays` returns the number of days of the
closed range that are neither Saturday, Sunday nor a UK holiday; on a single
day it returns 1 for a non-holiday weekday and 0 for a Saturday or Sunday. -/
theorem workDays_counts_business_days (cUK : Calendar) (s1 s2 : String) (t1 t2 fuel : Nat)
    (h1 : parseDate s1 = some t1) (h2 : parseDate s2 = some t2) (hle : t1 ≤ t2)
    (hfuel : t2 + 1 - t1 ≤ fuel) :
    workDays cUK fuel s1 s2 = .done (businessDaysBetween cUK t1 t2) ∧
    (t1 = t2 → isBusinessDay cUK t1 = true → workDays cUK fuel s1 s2 = .done 1) ∧
    (t1 = t2 → (weekdayOfDay t1 = 6 ∨ weekdayOfDay t1 = 0) →
      workDays cUK fuel s1 s2 = .done 0) := by
  have hmain := workDays_done cUK s1 s2 t1 t2 fuel h1 h2 hle hfuel
  refine ⟨hmain, ?_, ?_⟩
  · intro heq hb
    subst heq
    rw [hmain]
    simp [businessDaysBetween, List.range', hb]
  · intro heq hw
    subst heq
    rw [hmain]
    have hb : isBusinessDay cUK t1 = false := by
      unfold isBusinessDay
      rcases hw with hw | hw <;> simp [hw]
    simp [businessDaysBetween, List.range', hb]

/-- Witness of C4: the week from Monday 2024-01-01 to Sunday 2024-01-07, with no
holidays in the calendar, has five working days. -/
theorem workDays_counts_business_days_witness :
    workDays ⟨fun _ => false⟩ 7 "2024-01-01" "2024-01-07" = .done 5 :=
  (workDays_counts_business_days ⟨fun _ => false⟩ "2024-01-01" "2024-01-07" 739251 739257 7
    (by decide) (by decide) (by decide) (by decide)).1

/-- C9, amended: on two parsable dates with the first on or before the second,
`workDays` returns exactly when the loop may run as many iterations as the
range has days; with the first after the second the exit test stays false
while `t1`, a 64-bit count of seconds that `AddDate` advances modulo `2 ^ 64`,
is advanced `2 ^ 57` less the distance in days times, and the loop returns
exactly when it may run one iteration more than that. -/
theorem workDays_iterations (cUK : Calendar) (s1 s2 : String) (t1 t2 : Nat)
    (h1 : parseDate s1 = some t1) (h2 : parseDate s2 = some t2) :
    (t1 ≤ t2 → ∀ fuel, (∃ n, workDays cUK fuel s1 s2 = .done n) ↔ t2 + 1 - t1 ≤ fuel) ∧
    (t2 < t1 → ∀ fuel,
      ((∃ n, workDays cUK fuel s1 s2 = .done n) ↔ 2 ^ 57 - (t1 - t2) + 1 ≤ fuel) ∧
      (fuel ≤ 2 ^ 57 - (t1 - t2) → workDays cUK fuel s1 s2 = .outOfFuel)) := by
  constructor
  · intro hle fuel
    have h := (workDays_fuel cUK s1 s2 t1 t2 fuel h1 h2).1
    rwa [if_pos hle] at h
  · intro hlt fuel
    have hnle : ¬ t1 ≤ t2 := by omega
    obtain ⟨a, b⟩ := workDays_fuel cUK s1 s2 t1 t2 fuel h1 h2
    rw [if_neg hnle] at a b
    exact ⟨a, fun hf => b (by omega)⟩

/-- Witness of C9: from 2024-01-07 back to 2024-01-01 the loop is still running
after a million iterations. -/
theorem workDays_iterations_witness :
    workDays ⟨fun _ => false⟩ 1000000 "2024-01-07" "2024-01-01" = .outOfFuel :=
  ((workDays_iterations ⟨fun _ => false⟩ "2024-01-07" "2024-01-01" 739257 739251
    (by decide) (by decide)).2 (by decide) 1000000).2 (by norm_num)

/-- Counterexample to C9: from 2024-01-07 back to 2024-01-01 `workDays` does
return, once the loop may run `2 ^ 57 - 5` iterations. -/
theorem workDays_reversed_returns :
    ∃ n, workDays ⟨fun _ => false⟩ (2 ^ 57 - 5) "2024-01-07" "2024-01-01" = .done n :=
  (workDays_fuel ⟨fun _ => false⟩ "2024-01-07" "2024-01-01" 739257 739251 (2 ^ 57 - 5)
    (by decide) (by decide)).1.2 (by norm_num)

set_option maxRecDepth 100000 in
/-- C5: `storyPoints 5 = 7`, `storyPoints 0 = 0`, and for every number of
off-shift days up to 1000 the binary32 product truncated to `uint` equals
`floor (7 * n / 5)`. -/
theorem storyPoints_eq_floor (n : Nat) (h : n ≤ 1000) :
    storyPoints 5 = 7 ∧ storyPoints 0 = 0 ∧ storyPoints n = 7 * n / 5 := by
  have hall : ∀ k, k ≤ 1000 → storyPoints k = 7 * k / 5 := by decide
  exact ⟨by decide, by decide, hall n h⟩

/-- Witness of C5 at ten off-shift days. -/
theorem storyPoints_eq_floor_witness : storyPoints 10 = 14 :=
  (storyPoints_eq_floor 10 (by decide)).2.2


/-! ## Interleavings and sorting -/

theorem flatten_set_perm {ε : Type} :
    ∀ (qs : List (List ε)) (i : Nat) (e : ε) (rest : List ε),
      qs.get? i = some (e :: rest) → (e :: (qs.set i rest).flatten).Perm qs.flatten := by
  intro qs
  induction qs with
  | nil => intro i e rest h; simp at h
  | cons q qs ih =>
    intro i e rest h
    cases i with
    | zero =>
      simp only [List.get?_cons_zero, Option.some.injEq] at h
      subst h
      simp [List.set]
    | succ i =>
      simp only [List.get?_cons_succ] at h
      have := ih i e rest h
      simp only [List.set, List.flatten_cons]
      exact (List.perm_middle.symm).trans (List.Perm.append_left q this)

theorem interleave_perm {ε : Type} :
    ∀ (sched : List Nat) (qs : List (List ε)), (interleave qs sched).Perm qs.flatten := by
  intro sched
  induction sched with
  | nil => intro qs; simp [interleave]
  | cons i sched ih =>
    intro qs
    rw [interleave]
    split
    · rename_i e rest h
      exact ((ih (qs.set i rest)).cons e).trans (flatten_set_perm qs i e rest h)
    · exact ih qs

theorem insertLeft_perm (less : Row → Row → Bool) (x : Row) :
    ∀ l, (insertLeft less x l).Perm (x :: l) := by
  intro l
  induction l with
  | nil => simp [insertLeft]
  | cons y ys ih =>
    rw [insertLeft]
    split
    · exact (ih.cons y).trans (List.Perm.swap x y ys)
    · exact List.Perm.refl _

theorem insertLeft_sorted (less : Row → Row → Bool) (hw : StrictWeak less) (x : Row) :
    ∀ l, l.Pairwise (fun a b => less a b = false) →
      (insertLeft less x l).Pairwise (fun a b => less a b = false) := by
  intro l
  induction l with
  | nil => intro _; simp [insertLeft]
  | cons y ys ih =>
    intro hl
    rw [insertLeft]
    rw [List.pairwise_cons] at hl
    split
    · rename_i hxy
      rw [List.pairwise_cons]
      refine ⟨?_, ih hl.2⟩
      intro z hz
      rcases List.mem_cons.1 ((insertLeft_perm less x ys).mem_iff.1 hz) with hzx | hzy
      · subst hzx
        cases hc : less y z with
        | false => rfl
        | true =>
          have := hw.trans z y z hxy hc
          rw [hw.irrefl z] at this
          cases this
      · exact hl.1 z hzy
    · rename_i hxy
      have hxy : less x y = false := by simpa using hxy
      rw [List.pairwise_cons]
      refine ⟨?_, List.pairwise_cons.2 hl⟩
      intro z hz
      rcases List.mem_cons.1 hz with rfl | hz
      · exact hxy
      · exact hw.incomp x y z hxy (hl.1 z hz)

theorem foldl_insertLeft (less : Row → Row → Bool) (hw : StrictWeak less) :
    ∀ (l acc : List Row), acc.Pairwise (fun a b => less a b = false) →
      (l.foldl (fun acc x => insertLeft less x acc) acc).Perm (l ++ acc) ∧
      (l.foldl (fun acc x => insertLeft less x acc) acc).Pairwise (fun a b => less a b = false) := by
  intro l
  induction l with
  | nil => intro acc h; exact ⟨List.Perm.refl _, h⟩
  | cons x xs ih =>
    intro acc h
    obtain ⟨hp, hs⟩ := ih (insertLeft less x acc) (insertLeft_sorted less hw x acc h)
    refine ⟨?_, hs⟩
    simp only [List.foldl_cons, List.cons_append]
    exact hp.trans ((List.Perm.append_left xs (insertLeft_perm less x acc)).trans
      List.perm_middle)

theorem insertionSortLessFunc_isSortSlice : IsSortSlice insertionSortLessFunc := by
  intro less hw l
  obtain ⟨hp, hs⟩ := foldl_insertLeft less hw l [] List.Pairwise.nil
  unfold insertionSortLessFunc
  refine ⟨(List.reverse_perm _).trans (by simpa using hp), ?_⟩
  rw [List.pairwise_reverse]
  exact hs

theorem goEnv_sound : goEnv.Sound :=
  ⟨insertionSortLessFunc_isSortSlice, fun _ m => List.Perm.refl m⟩

theorem strLess_iff (a b : String) : strLess a b = true ↔ a.data < b.data := by
  simp [strLess]

theorem lessByFirst_strictWeak : StrictWeak lessByFirst where
  irrefl := by
    intro a
    simp [lessByFirst, strLess]
  trans := by
    intro a b c h1 h2
    simp only [lessByFirst, strLess, decide_eq_true_eq] at *
    exact lt_trans h1 h2
  incomp := by
    intro a b c h1 h2
    simp only [lessByFirst, strLess, decide_eq_false_iff_not, not_lt] at *
    exact le_trans h2 h1

theorem string_data_injective {a b : String} (h : a.data = b.data) : a = b := by
  cases a; cases b; simp_all

/-- A sorted rearrangement of rows with distinct keys is strictly ascending. -/
theorem sorted_strict_of_nodup (l : List Row)
    (hs : l.Pairwise (fun a b => lessByFirst b a = false))
    (hn : (l.map Row.key).Nodup) :
    l.Pairwise (fun a b => a.key.data < b.key.data) := by
  rw [List.Nodup, List.pairwise_map] at hn
  refine (hs.and hn).imp ?_
  intro a b h
  obtain ⟨h1, h2⟩ := h
  simp only [lessByFirst, strLess, decide_eq_false_iff_not, not_lt] at h1
  rcases lt_or_eq_of_le h1 with h | h
  · exact h
  · exact absurd (string_data_injective h) h2

/-- Two strictly ascending lists with the same elements are equal. -/
theorem strict_sorted_unique (l1 l2 : List Row) (hp : l1.Perm l2)
    (h1 : l1.Pairwise (fun a b => a.key.data < b.key.data))
    (h2 : l2.Pairwise (fun a b => a.key.data < b.key.data)) : l1 = l2 := by
  haveI : IsAntisymm Row (fun a b => a.key.data < b.key.data) :=
    ⟨fun a b hab hba => absurd hab (lt_asymm hba)⟩
  exact List.eq_of_perm_of_sorted hp h1 h2

/-- What a sound environment makes of `sort.Slice` by the first cell, on rows
with distinct keys: the one strictly ascending rearrangement. -/
theorem sortSlice_strict (E : Env) (hE : E.Sound) (l : List Row)
    (hn : (l.map Row.key).Nodup) :
    (E.sortSlice lessByFirst l).Perm l ∧
      (E.sortSlice lessByFirst l).Pairwise (fun a b => a.key.data < b.key.data) := by
  obtain ⟨hp, hs⟩ := hE.1 lessByFirst lessByFirst_strictWeak l
  exact ⟨hp, sorted_strict_of_nodup _ hs ((hp.map Row.key).nodup_iff.2 hn)⟩

theorem sortSlice_congr (E E1 : Env) (hE : E.Sound) (hE1 : E1.Sound) (l l1 : List Row)
    (hp : l.Perm l1) (hn : (l.map Row.key).Nodup) :
    E.sortSlice lessByFirst l = E1.sortSlice lessByFirst l1 := by
  have hn1 : (l1.map Row.key).Nodup := (hp.map Row.key).nodup_iff.1 hn
  obtain ⟨p, s⟩ := sortSlice_strict E hE l hn
  obtain ⟨p1, s1⟩ := sortSlice_strict E1 hE1 l1 hn1
  exact strict_sorted_unique _ _ (p.trans (hp.trans p1.symm)) s s1

theorem collect_done {α β : Type} (f : α → Outcome β) (g : α → β) :
    ∀ (l : List α), (∀ x ∈ l, f x = .done (g x)) → collect (l.map f) = .done (l.map g) := by
  intro l
  induction l with
  | nil => intro _; rfl
  | cons x xs ih =>
    intro h
    simp only [List.map_cons, collect]
    rw [h x (List.mem_cons_self _ _), ih (fun y hy => h y (List.mem_cons_of_mem _ hy))]
    rfl

/-! ## `shiftNow` -/

theorem nowWorker_done (getSchedule : Fetcher) (token : String) (w : String × String)
    (hwf : ∀ r, getSchedule w.1 w.2 "" "" token = .ok r → nowWellFormed r = true) :
    nowWorker getSchedule token w = .done (nowRows getSchedule token w) := by
  unfold nowWorker nowRows
  cases hg : getSchedule w.1 w.2 "" "" token with
  | error e => rfl
  | ok r =>
    have h := hwf r hg
    obtain ⟨ps⟩ := r
    cases ps with
    | none => simp [nowWellFormed] at h
    | some ps =>
      obtain ⟨fs, oc, us⟩ := ps
      cases oc with
      | none => rfl
      | some oc =>
        obtain ⟨u⟩ := oc
        cases u with
        | none => simp [nowWellFormed] at h
        | some u => rfl

theorem nowRows_keys_sublist (getSchedule : Fetcher) (token : String) :
    ∀ l : List (String × String),
      (((l.map (nowRows getSchedule token)).flatten).map Row.key).Sublist (l.map Prod.fst) := by
  intro l
  induction l with
  | nil => simp
  | cons w ws ih =>
    simp only [List.map_cons, List.flatten_cons, List.map_append]
    unfold nowRows
    cases getSchedule w.1 w.2 "" "" token with
    | error e => simpa using ih.cons _
    | ok r => simpa [Row.key] using ih

theorem nowRows_length (getSchedule : Fetcher) (token : String) :
    ∀ l : List (String × String),
      ((l.map (nowRows getSchedule token)).flatten).length
        + (l.filter (nowFetchFails getSchedule token)).length = l.length := by
  intro l
  induction l with
  | nil => simp
  | cons w ws ih =>
    simp only [List.map_cons, List.flatten_cons, List.length_append, List.length_cons,
      List.filter_cons]
    cases hg : getSchedule w.1 w.2 "" "" token with
    | error e =>
      have h1 : nowRows getSchedule token w = [] := by simp [nowRows, hg]
      have h2 : nowFetchFails getSchedule token w = true := by simp [nowFetchFails, hg]
      rw [h1, h2]
      simp only [List.length_nil, if_true, List.length_cons]
      omega
    | ok r =>
      have h1 : (nowRows getSchedule token w).length = 1 := by simp [nowRows, hg]
      have h2 : nowFetchFails getSchedule token w = false := by simp [nowFetchFails, hg]
      rw [h1, h2]
      simp only [Bool.false_eq_true, if_false]
      omega

/-- C1, amended: with distinct shift names and responses that carry a schedule
whose on-call object, if any, names a user, `shiftNow` finishes whatever
fetches fail; its rows are strictly ascending by shift name, they are exactly the rows
{shift, on-call name} of the shifts whose fetch succeeded, their number plus
the number of failed fetches is the number of shifts, and every order of the
workers (and every sorting routine and map order) renders the same table. -/
theorem shiftNow_rows (E : Env) (hE : E.Sound) (getSchedule : Fetcher)
    (shifts : GoMap String) (token : String) (sched : List Nat)
    (hkeys : (shifts.map Prod.fst).Nodup)
    (hwf : ∀ w ∈ shifts, ∀ r, getSchedule w.1 w.2 "" "" token = .ok r →
      nowWellFormed r = true) :
    ∃ t, shiftNow E getSchedule shifts token sched = .done t ∧
      t.fields = [Cell.str "SHIFT", Cell.str "ENGINEER"] ∧
      t.data.Pairwise (fun a b => a.key.data < b.key.data) ∧
      (∀ row, row ∈ t.data ↔ ∃ w ∈ shifts, ∃ r,
        getSchedule w.1 w.2 "" "" token = .ok r ∧
          row = [Cell.str w.1, Cell.str (onCallName r)]) ∧
      t.data.length + (shifts.filter (nowFetchFails getSchedule token)).length
        = shifts.length ∧
      (∀ (E1 : Env) (sched1 : List Nat), E1.Sound →
        shiftNow E1 getSchedule shifts token sched1 = .done t) := by
  -- every run appends a rearrangement of the rows owed
  have run : ∀ (E1 : Env) (sched1 : List Nat), E1.Sound →
      ∃ data, data.Perm ((shifts.map (nowRows getSchedule token)).flatten) ∧
        shiftNow E1 getSchedule shifts token sched1
          = .done ⟨[Cell.str "SHIFT", Cell.str "ENGINEER"], E1.sortSlice lessByFirst data⟩ := by
    intro E1 sched1 hE1
    have hr := hE1.2 _ shifts
    have hc := collect_done (nowWorker getSchedule token) (nowRows getSchedule token)
      (E1.range shifts)
      (fun w hw => nowWorker_done getSchedule token w (hwf w (hr.mem_iff.1 hw)))
    refine ⟨interleave ((E1.range shifts).map (nowRows getSchedule token)) sched1,
      (interleave_perm sched1 _).trans (hr.map _).flatten, ?_⟩
    simp only [shiftNow, hc, Outcome.bind]
  have hnodup : (((shifts.map (nowRows getSchedule token)).flatten).map Row.key).Nodup :=
    (nowRows_keys_sublist getSchedule token shifts).nodup hkeys
  obtain ⟨data, hp, hrun⟩ := run E sched hE
  have hnd : (data.map Row.key).Nodup := (hp.map Row.key).nodup_iff.2 hnodup
  obtain ⟨hsp, hss⟩ := sortSlice_strict E hE data hnd
  refine ⟨_, hrun, rfl, hss, ?_, ?_, ?_⟩
  · intro row
    rw [(hsp.trans hp).mem_iff, List.mem_flatten]
    constructor
    · rintro ⟨q, hq, hrow⟩
      obtain ⟨w, hw, rfl⟩ := List.mem_map.1 hq
      refine ⟨w, hw, ?_⟩
      unfold nowRows at hrow
      cases hg : getSchedule w.1 w.2 "" "" token with
      | error e => rw [hg] at hrow; simp at hrow
      | ok r => rw [hg] at hrow; exact ⟨r, rfl, by simpa using hrow⟩
    · rintro ⟨w, hw, r, hg, rfl⟩
      refine ⟨nowRows getSchedule token w, List.mem_map.2 ⟨w, hw, rfl⟩, ?_⟩
      simp [nowRows, hg]
  · show (E.sortSlice lessByFirst data).length + _ = _
    rw [(hsp.trans hp).length_eq]
    exact nowRows_length getSchedule token shifts
  · intro E1 sched1 hE1
    obtain ⟨data1, hp1, hrun1⟩ := run E1 sched1 hE1
    rw [hrun1, sortSlice_congr E1 E hE1 hE data1 data (hp1.trans hp.symm)
      ((hp1.map Row.key).nodup_iff.2 hnodup)]

/-! ## Go maps -/

theorem GoMap.get_set_self {ν : Type} (m : GoMap ν) (k : String) (v : ν) :
    GoMap.get (GoMap.set m k v) k = some v := by
  induction m with
  | nil => simp [GoMap.set, GoMap.get]
  | cons kv rest ih =>
    obtain ⟨k1, v1⟩ := kv
    by_cases h : k1 = k
    · simp [GoMap.set, GoMap.get, h]
    · simp [GoMap.set, GoMap.get, h, ih]

theorem GoMap.get_set_ne {ν : Type} (m : GoMap ν) (k k2 : String) (v : ν) (hne : k ≠ k2) :
    GoMap.get (GoMap.set m k v) k2 = GoMap.get m k2 := by
  induction m with
  | nil => simp [GoMap.set, GoMap.get, hne]
  | cons kv rest ih =>
    obtain ⟨k1, v1⟩ := kv
    by_cases h : k1 = k
    · subst h
      simp [GoMap.set, GoMap.get, hne]
    · by_cases h2 : k1 = k2
      · subst h2
        simp [GoMap.set, GoMap.get, h]
      · simp [GoMap.set, GoMap.get, h, h2, ih]

theorem GoMap.keys_set {ν : Type} (m : GoMap ν) (k : String) (v : ν) :
    (GoMap.set m k v).map Prod.fst
      = if k ∈ m.map Prod.fst then m.map Prod.fst else m.map Prod.fst ++ [k] := by
  induction m with
  | nil => simp [GoMap.set]
  | cons kv rest ih =>
    obtain ⟨k1, v1⟩ := kv
    by_cases hk : k1 = k
    · simp [GoMap.set, hk]
    · have hk2 : ¬ k = k1 := fun h => hk h.symm
      simp only [GoMap.set, hk, if_false, List.map_cons, ih, List.mem_cons, hk2, false_or]
      split <;> simp

theorem GoMap.keys_set_nodup {ν : Type} (m : GoMap ν) (k : String) (v : ν)
    (hn : (m.map Prod.fst).Nodup) : ((GoMap.set m k v).map Prod.fst).Nodup := by
  rw [GoMap.keys_set]
  split
  · exact hn
  · rename_i h
    exact List.Nodup.append hn (List.nodup_singleton k) (by simpa using h)

theorem GoMap.mem_keys_set {ν : Type} (m : GoMap ν) (k k2 : String) (v : ν) :
    k2 ∈ (GoMap.set m k v).map Prod.fst ↔ k2 ∈ m.map Prod.fst ∨ k2 = k := by
  rw [GoMap.keys_set]
  split
  · rename_i h
    constructor
    · exact Or.inl
    · rintro (h2 | rfl)
      · exact h2
      · exact h
  · simp

theorem GoMap.mem_set {ν : Type} (m : GoMap ν) (k : String) (v : ν) (kv : String × ν)
    (hn : (m.map Prod.fst).Nodup) (h : kv ∈ GoMap.set m k v) :
    kv = (k, v) ∨ (kv ∈ m ∧ kv.1 ≠ k) := by
  induction m with
  | nil => left; simpa [GoMap.set] using h
  | cons kv1 rest ih =>
    obtain ⟨k1, v1⟩ := kv1
    rw [List.map_cons, List.nodup_cons] at hn
    by_cases hk : k1 = k
    · simp only [GoMap.set, hk, if_true, List.mem_cons] at h
      rcases h with h | h
      · exact Or.inl h
      · right
        refine ⟨List.mem_cons_of_mem _ h, ?_⟩
        intro hkv
        exact hn.1 (List.mem_map.2 ⟨kv, h, by rw [hkv, hk]⟩)
    · simp only [GoMap.set, hk, if_false, List.mem_cons] at h
      rcases h with h | h
      · right
        subst h
        exact ⟨List.mem_cons_self _ _, hk⟩
      · rcases ih hn.2 h with h | h
        · exact Or.inl h
        · exact Or.inr ⟨List.mem_cons_of_mem _ h.1, h.2⟩

/-! ## `shiftsRoster` -/

theorem rosterApply_keys_nodup (m : GoMap (GoMap String)) (e : RosterWrite)
    (hn : (m.map Prod.fst).Nodup) : ((rosterApply m e).map Prod.fst).Nodup := by
  unfold rosterApply
  simp only
  split
  · exact GoMap.keys_set_nodup _ _ _ (GoMap.keys_set_nodup _ _ _ hn)
  · exact GoMap.keys_set_nodup _ _ _ hn

theorem rosterApply_mem_keys (m : GoMap (GoMap String)) (e : RosterWrite) (k : String) :
    k ∈ (rosterApply m e).map Prod.fst ↔ k ∈ m.map Prod.fst ∨ k = e.start := by
  unfold rosterApply
  simp only
  split
  · rw [GoMap.mem_keys_set, GoMap.mem_keys_set]; tauto
  · rw [GoMap.mem_keys_set]

theorem rosterApply_mem (m : GoMap (GoMap String)) (e : RosterWrite)
    (hn : (m.map Prod.fst).Nodup) (hday : e.shift ≠ "day") (kv : String × GoMap String)
    (h : kv ∈ rosterApply m e) :
    (kv.1 = e.start ∧ GoMap.getStr kv.2 "day" = e.day) ∨ (kv ∈ m ∧ kv.1 ≠ e.start) := by
  have hval : ∀ inner : GoMap String,
      GoMap.getStr (GoMap.set (GoMap.set inner "day" e.day) e.shift e.name) "day" = e.day := by
    intro inner
    unfold GoMap.getStr
    rw [GoMap.get_set_ne _ _ _ _ hday, GoMap.get_set_self]
    rfl
  unfold rosterApply at h
  simp only at h
  split at h
  · rcases GoMap.mem_set _ _ _ _ (GoMap.keys_set_nodup _ _ _ hn) h with h | h
    · left
      rw [h]
      exact ⟨rfl, hval _⟩
    · rcases GoMap.mem_set _ _ _ _ hn h.1 with h2 | h2
      · exact absurd (by rw [h2]) h.2
      · exact Or.inr h2
  · rcases GoMap.mem_set _ _ _ _ hn h with h | h
    · left
      rw [h]
      exact ⟨rfl, hval _⟩
    · exact Or.inr h

/-- What the shared map holds after a sequence of locked updates. -/
theorem roster_fold (evs : List RosterWrite) (hday : ∀ e ∈ evs, e.shift ≠ "day") :
    ∀ (m : GoMap (GoMap String)), (m.map Prod.fst).Nodup →
      ((evs.foldl rosterApply m).map Prod.fst).Nodup ∧
      (∀ k, k ∈ (evs.foldl rosterApply m).map Prod.fst ↔
        k ∈ m.map Prod.fst ∨ ∃ e ∈ evs, e.start = k) ∧
      (∀ kv ∈ evs.foldl rosterApply m,
        kv ∈ m ∨ ∃ e ∈ evs, e.start = kv.1 ∧ GoMap.getStr kv.2 "day" = e.day) := by
  induction evs with
  | nil =>
    intro m hn
    exact ⟨hn, by simp, fun kv h => Or.inl h⟩
  | cons e evs ih =>
    intro m hn
    have hn1 := rosterApply_keys_nodup m e hn
    obtain ⟨a, b, c⟩ := ih (fun x hx => hday x (List.mem_cons_of_mem _ hx)) (rosterApply m e) hn1
    refine ⟨a, ?_, ?_⟩
    · intro k
      rw [List.foldl_cons, b k, rosterApply_mem_keys]
      constructor
      · rintro ((h | h) | ⟨x, hx, h⟩)
        · exact Or.inl h
        · exact Or.inr ⟨e, List.mem_cons_self _ _, h.symm⟩
        · exact Or.inr ⟨x, List.mem_cons_of_mem _ hx, h⟩
      · rintro (h | ⟨x, hx, h⟩)
        · exact Or.inl (Or.inl h)
        · rcases List.mem_cons.1 hx with rfl | hx
          · exact Or.inl (Or.inr h.symm)
          · exact Or.inr ⟨x, hx, h⟩
    · intro kv hkv
      rcases c kv hkv with h | ⟨x, hx, h⟩
      · rcases rosterApply_mem m e hn (hday e (List.mem_cons_self _ _)) kv h with h2 | h2
        · exact Or.inr ⟨e, List.mem_cons_self _ _, h2.1.symm, h2.2⟩
        · exact Or.inl h2.1
      · exact Or.inr ⟨x, List.mem_cons_of_mem _ hx, h⟩

/-! ## Timestamps -/

theorem twoDigits_le {a b : Char} {v : Nat} (h : twoDigits a b = some v) : v ≤ 99 := by
  unfold twoDigits at h
  split at h
  · rename_i x y hx hy
    have := digitVal_le hx
    have := digitVal_le hy
    injection h with h
    omega
  · cases h

theorem fourDigits_le {a b c d : Char} {v : Nat} (h : fourDigits a b c d = some v) :
    v ≤ 9999 := by
  unfold fourDigits at h
  split at h
  · rename_i w x y z hw hx hy hz
    have := digitVal_le hw
    have := digitVal_le hx
    have := digitVal_le hy
    have := digitVal_le hz
    injection h with h
    omega
  · cases h

theorem clockAndZone_bounds {rest : List Char} {h n sec : Nat}
    (hc : clockAndZone rest = some (h, n, sec)) : h ≤ 23 ∧ n ≤ 59 := by
  unfold clockAndZone at hc
  split at hc
  · split at hc
    · split at hc
      · rename_i hcond
        injection hc with hc
        simp only [Prod.mk.injEq] at hc
        obtain ⟨rfl, rfl, rfl⟩ := hc
        exact ⟨hcond.2.2.1, hcond.2.2.2.1⟩
      · cases hc
    · cases hc
  · cases hc

/-- The model of `time.Parse` in `goEnv` keeps the contract of the routine. -/
theorem goEnv_parseValid : goEnv.ParseValid := by
  intro s t h
  change parseRFC3339 s = some t at h
  unfold parseRFC3339 at h
  split at h
  · split at h
    · rename_i y m d hh n sec hy hm hd hclock
      split at h
      · rename_i hcond
        injection h with h
        subst h
        obtain ⟨b1, b2⟩ := clockAndZone_bounds hclock
        exact ⟨fourDigits_le hy, hcond.2.2.2.1, hcond.2.2.2.2.1, hcond.2.2.2.2.2.1,
          hcond.2.2.2.2.2.2, b1, b2⟩
      · cases h
    · cases h
  · cases h

theorem parseTime_bounds {E : Env} (hP : E.ParseValid) {s : String} {t : Time}
    (h : parseTime E s = some t) :
    t.year ≤ 9999 ∧ t.month ≤ 99 ∧ t.day ≤ 99 ∧ t.hour ≤ 99 ∧ t.minute ≤ 99 := by
  obtain ⟨a, _, c, _, e, f, g⟩ := hP s t h
  have := daysIn_le t.year t.month
  exact ⟨a, by omega, by omega, by omega, by omega⟩

theorem digitChar_inj {a b : Nat} (h : digitChar a = digitChar b) : a % 10 = b % 10 := by
  have key : ∀ x, x < 10 → ∀ y, y < 10 → Char.ofNat (48 + x) = Char.ofNat (48 + y) → x = y := by
    decide
  exact key _ (Nat.mod_lt _ (by decide)) _ (Nat.mod_lt _ (by decide)) h

theorem pad2_inj {a b : Nat} (ha : a ≤ 99) (hb : b ≤ 99) (h : pad2 a = pad2 b) : a = b := by
  simp only [pad2, List.cons.injEq, and_true] at h
  have h1 := digitChar_inj h.1
  have h2 := digitChar_inj h.2
  omega

theorem pad4_inj {a b : Nat} (ha : a ≤ 9999) (hb : b ≤ 9999) (h : pad4 a = pad4 b) : a = b := by
  simp only [pad4, List.cons.injEq, and_true] at h
  have h1 := digitChar_inj h.1
  have h2 := digitChar_inj h.2.1
  have h3 := digitChar_inj h.2.2.1
  have h4 := digitChar_inj h.2.2.2
  omega

/-- The text of the default layout holds the civil date: equal texts of parsed
timestamps mean equal weekdays. -/
theorem format_weekday {E : Env} (hP : E.ParseValid) {s1 s2 : String} {t1 t2 : Time}
    (h1 : parseTime E s1 = some t1) (h2 : parseTime E s2 = some t2)
    (h : t1.Format "2006-01-02 15:04" = t2.Format "2006-01-02 15:04") :
    t1.Weekday = t2.Weekday := by
  obtain ⟨y1, m1, d1, _, _⟩ := parseTime_bounds hP h1
  obtain ⟨y2, m2, d2, _, _⟩ := parseTime_bounds hP h2
  have hne : ¬ ("2006-01-02 15:04" = "2006-01-02") := by decide
  simp only [Time.Format, hne, if_false] at h
  have h := congrArg String.data h
  have e4 : pad4 t1.year = pad4 t2.year ∧ pad2 t1.month = pad2 t2.month ∧
      pad2 t1.day = pad2 t2.day := by
    simp only [pad4, pad2, List.cons_append, List.nil_append, List.cons.injEq] at h ⊢
    tauto
  have hy := pad4_inj y1 y2 e4.1
  have hm := pad2_inj m1 m2 e4.2.1
  have hd := pad2_inj d1 d2 e4.2.2
  unfold Time.Weekday Time.dayNum
  rw [hy, hm, hd]

theorem startText_parsed {E : Env} {s : String} {t : Time} (h : parseTime E s = some t) :
    startText E s "" = t.Format "2006-01-02 15:04" := by
  simp [startText, convertTime, h]

theorem weekday_parsed {E : Env} {s : String} {t : Time} (h : parseTime E s = some t) :
    (weekday E s).1 = t.Weekday := by
  simp [weekday, h]

theorem rosterWrites_done (E : Env) (shift : String) :
    ∀ ps : List (Option scheduleEntry), ps.all entryWellFormed = true →
      rosterWrites E shift ps = .done ((ps.filterMap id).map (rosterWriteOf E shift)) := by
  intro ps
  induction ps with
  | nil => intro _; rfl
  | cons p rest ih =>
    intro h
    rw [List.all_cons, Bool.and_eq_true] at h
    cases p with
    | none => simp [entryWellFormed] at h
    | some en =>
      obtain ⟨s, e, u⟩ := en
      cases u with
      | none => simp [entryWellFormed] at h
      | some u =>
        simp only [rosterWrites, deref, Outcome.bind, ih h.2, List.filterMap_cons, id,
          List.map_cons, rosterWriteOf, entryName]

theorem rosterWorker_done (E : Env) (getSchedule : Fetcher) (startdate enddate token : String)
    (w : String × String)
    (hwf : ∀ r, getSchedule w.1 w.2 startdate enddate token = .ok r →
      entriesWellFormed r = true) :
    rosterWorker E getSchedule startdate enddate token w
      = .done (rosterOwed E getSchedule startdate enddate token w) := by
  unfold rosterWorker rosterOwed
  cases hg : getSchedule w.1 w.2 startdate enddate token with
  | error e => rfl
  | ok r =>
    have h := hwf r hg
    obtain ⟨ps⟩ := r
    cases ps with
    | none => simp [entriesWellFormed] at h
    | some ps =>
      obtain ⟨fs, oc, us⟩ := ps
      cases fs with
      | none => simp [entriesWellFormed] at h
      | some fs =>
        simp only [entriesWellFormed] at h
        simp only [deref, Outcome.bind, entriesOf, rosterWrites_done E w.1 _ h]

/-- The rows `shiftsRoster` builds from the shared map, for any sequence of
updates that never writes under the key "day" and in which equal starts carry
equal weekdays. -/
theorem roster_rows (E : Env) (hE : E.Sound) (evs : List RosterWrite)
    (hday : ∀ e ∈ evs, e.shift ≠ "day")
    (hcons : ∀ e1 ∈ evs, ∀ e2 ∈ evs, e1.start = e2.start → e1.day = e2.day) :
    (((E.range (evs.foldl rosterApply [])).map rosterRow).map Row.key).Nodup ∧
    ∀ row, row ∈ (E.range (evs.foldl rosterApply [])).map rosterRow ↔
      ∃ e ∈ evs, row = [Cell.str e.start, Cell.str e.day] := by
  obtain ⟨a, b, c⟩ := roster_fold evs hday [] (by simp)
  have hr := hE.2 _ (evs.foldl rosterApply [])
  constructor
  · have : ((E.range (evs.foldl rosterApply [])).map rosterRow).map Row.key
        = (E.range (evs.foldl rosterApply [])).map Prod.fst := by
      rw [List.map_map]
      rfl
    rw [this]
    exact (hr.map Prod.fst).nodup_iff.2 a
  · intro row
    rw [List.mem_map]
    constructor
    · rintro ⟨kv, hkv, rfl⟩
      rcases c kv (hr.mem_iff.1 hkv) with h | ⟨e, he, h1, h2⟩
      · cases h
      · exact ⟨e, he, by simp [rosterRow, h1, h2]⟩
    · rintro ⟨e, he, rfl⟩
      have hk : e.start ∈ (evs.foldl rosterApply []).map Prod.fst :=
        (b e.start).2 (Or.inr ⟨e, he, rfl⟩)
      obtain ⟨kv, hkv, hkey⟩ := List.mem_map.1 hk
      refine ⟨kv, hr.mem_iff.2 hkv, ?_⟩
      rcases c kv hkv with h | ⟨e2, he2, h1, h2⟩
      · cases h
      · have := hcons e2 he2 e he (h1.trans hkey)
        simp [rosterRow, hkey, h2, this]

theorem rosterOwed_congr (E E1 : Env) (h : E1.Parse = E.Parse) (getSchedule : Fetcher)
    (startdate enddate token : String) :
    rosterOwed E1 getSchedule startdate enddate token
      = rosterOwed E getSchedule startdate enddate token := by
  have hw : rosterWriteOf E1 = rosterWriteOf E := by
    funext shift en
    simp only [rosterWriteOf, startText, convertTime, weekday, parseTime, h]
  funext w
  simp only [rosterOwed, hw]

theorem mem_rosterOwed (E : Env) (getSchedule : Fetcher) (startdate enddate token : String)
    (shifts : GoMap String) (e : RosterWrite) :
    e ∈ (shifts.map (rosterOwed E getSchedule startdate enddate token)).flatten ↔
      ∃ w ∈ shifts, ∃ r, getSchedule w.1 w.2 startdate enddate token = .ok r ∧
        ∃ en ∈ entriesOf r, e = rosterWriteOf E w.1 en := by
  rw [List.mem_flatten]
  constructor
  · rintro ⟨q, hq, he⟩
    obtain ⟨w, hw, rfl⟩ := List.mem_map.1 hq
    refine ⟨w, hw, ?_⟩
    unfold rosterOwed at he
    cases hg : getSchedule w.1 w.2 startdate enddate token with
    | error x => rw [hg] at he; simp at he
    | ok r =>
      rw [hg] at he
      obtain ⟨en, hen, rfl⟩ := List.mem_map.1 he
      exact ⟨r, rfl, en, hen, rfl⟩
  · rintro ⟨w, hw, r, hg, en, hen, rfl⟩
    refine ⟨_, List.mem_map.2 ⟨w, hw, rfl⟩, ?_⟩
    simp only [rosterOwed, hg]
    exact List.mem_map.2 ⟨en, hen, rfl⟩

/-- C6, amended: when no shift is named "day", every decoded response carries
its entries with their users and every start parses (whatever timestamps
`time.Parse` accepts), `shiftsRoster` renders
rows strictly ascending by START, exactly one row {formatted start, weekday of
that start} for each formatted start that occurs among the entries of the
fetched shifts, and the table is the same for every order in which the workers
take the mutex (and for every sorting routine and map order). -/
theorem shiftsRoster_rows (E : Env) (hE : E.Sound) (hP : E.ParseValid)
    (getSchedule : Fetcher)
    (shifts : GoMap String) (startdate enddate token : String) (sched : List Nat)
    (hday : ∀ w ∈ shifts, w.1 ≠ "day")
    (hwf : ∀ w ∈ shifts, ∀ r, getSchedule w.1 w.2 startdate enddate token = .ok r →
      entriesWellFormed r = true ∧ startsParse E r = true) :
    ∃ t, shiftsRoster E getSchedule shifts startdate enddate token sched = .done t ∧
      t.fields = [Cell.str "START", Cell.str "DAY"] ∧
      t.data.Pairwise (fun a b => a.key.data < b.key.data) ∧
      (∀ row, row ∈ t.data ↔ ∃ w ∈ shifts, ∃ r,
        getSchedule w.1 w.2 startdate enddate token = .ok r ∧
        ∃ en ∈ entriesOf r, ∃ tm, parseTime E en.Start = some tm ∧
          row = [Cell.str (tm.Format "2006-01-02 15:04"),
            Cell.str (weekdayString tm.Weekday)]) ∧
      (∀ (E1 : Env) (sched1 : List Nat), E1.Sound → E1.Parse = E.Parse →
        shiftsRoster E1 getSchedule shifts startdate enddate token sched1 = .done t) := by
  let owed := (shifts.map (rosterOwed E getSchedule startdate enddate token)).flatten
  -- every update comes from a parsed entry of a fetched shift
  have hsrc : ∀ e ∈ owed, e.shift ≠ "day" ∧ ∃ s tm, parseTime E s = some tm ∧
      e.start = tm.Format "2006-01-02 15:04" ∧ e.day = weekdayString tm.Weekday := by
    intro e he
    obtain ⟨w, hw, r, hg, en, hen, rfl⟩ :=
      (mem_rosterOwed E getSchedule startdate enddate token shifts e).1 he
    refine ⟨hday w hw, ?_⟩
    have hp := (hwf w hw r hg).2
    unfold startsParse at hp
    have := List.all_eq_true.1 hp en hen
    obtain ⟨tm, htm⟩ := Option.isSome_iff_exists.1 this
    exact ⟨en.Start, tm, htm, startText_parsed htm, by
      simp only [rosterWriteOf, weekday_parsed htm]⟩
  have hcons : ∀ e1 ∈ owed, ∀ e2 ∈ owed, e1.start = e2.start → e1.day = e2.day := by
    intro e1 h1 e2 h2 heq
    obtain ⟨_, s1, t1, p1, a1, b1⟩ := hsrc e1 h1
    obtain ⟨_, s2, t2, p2, a2, b2⟩ := hsrc e2 h2
    rw [b1, b2, format_weekday hP p1 p2 (by rw [← a1, ← a2, heq])]
  -- every run applies a rearrangement of the updates owed
  have run : ∀ (E1 : Env) (sched1 : List Nat), E1.Sound → E1.Parse = E.Parse →
      ∃ evs : List RosterWrite, evs.Perm owed ∧
        shiftsRoster E1 getSchedule shifts startdate enddate token sched1
          = .done ⟨[Cell.str "START", Cell.str "DAY"],
              E1.sortSlice lessByFirst ((E1.range (evs.foldl rosterApply [])).map rosterRow)⟩ := by
    intro E1 sched1 hE1 hpar
    have hr := hE1.2 _ shifts
    have howed : rosterOwed E1 getSchedule startdate enddate token
        = rosterOwed E getSchedule startdate enddate token :=
      rosterOwed_congr E E1 hpar getSchedule startdate enddate token
    have hc := collect_done (rosterWorker E1 getSchedule startdate enddate token)
      (rosterOwed E1 getSchedule startdate enddate token) (E1.range shifts)
      (fun w hw => rosterWorker_done E1 getSchedule startdate enddate token w
        (fun r hg => (hwf w (hr.mem_iff.1 hw) r hg).1))
    rw [howed] at hc
    refine ⟨interleave ((E1.range shifts).map
        (rosterOwed E getSchedule startdate enddate token)) sched1,
      (interleave_perm sched1 _).trans (hr.map _).flatten, ?_⟩
    simp only [shiftsRoster, hc, Outcome.bind]
  -- the rows of a run
  have rows : ∀ (E1 : Env), E1.Sound → ∀ evs : List RosterWrite, evs.Perm owed →
      (((E1.range (evs.foldl rosterApply [])).map rosterRow).map Row.key).Nodup ∧
      ∀ row, row ∈ (E1.range (evs.foldl rosterApply [])).map rosterRow ↔
        ∃ e ∈ owed, row = [Cell.str e.start, Cell.str e.day] := by
    intro E1 hE1 evs hp
    obtain ⟨n, m⟩ := roster_rows E1 hE1 evs
      (fun e he => (hsrc e (hp.mem_iff.1 he)).1)
      (fun e1 h1 e2 h2 => hcons e1 (hp.mem_iff.1 h1) e2 (hp.mem_iff.1 h2))
    refine ⟨n, fun row => (m row).trans ?_⟩
    constructor
    · rintro ⟨e, he, h⟩
      exact ⟨e, hp.mem_iff.1 he, h⟩
    · rintro ⟨e, he, h⟩
      exact ⟨e, hp.mem_iff.2 he, h⟩
  obtain ⟨evs, hp, hrun⟩ := run E sched hE rfl
  obtain ⟨hn, hm⟩ := rows E hE evs hp
  obtain ⟨hsp, hss⟩ := sortSlice_strict E hE _ hn
  refine ⟨_, hrun, rfl, hss, ?_, ?_⟩
  · intro row
    rw [hsp.mem_iff, hm row]
    constructor
    · rintro ⟨e, he, rfl⟩
      obtain ⟨w, hw, r, hg, en, hen, rfl⟩ :=
        (mem_rosterOwed E getSchedule startdate enddate token shifts e).1 he
      have hp2 := (hwf w hw r hg).2
      unfold startsParse at hp2
      obtain ⟨tm, htm⟩ := Option.isSome_iff_exists.1 (List.all_eq_true.1 hp2 en hen)
      refine ⟨w, hw, r, hg, en, hen, tm, htm, ?_⟩
      simp only [rosterWriteOf, weekday_parsed htm, startText_parsed htm]
    · rintro ⟨w, hw, r, hg, en, hen, tm, htm, rfl⟩
      refine ⟨rosterWriteOf E w.1 en,
        (mem_rosterOwed E getSchedule startdate enddate token shifts _).2
          ⟨w, hw, r, hg, en, hen, rfl⟩, ?_⟩
      simp only [rosterWriteOf, weekday_parsed htm, startText_parsed htm]
  · intro E1 sched1 hE1 hpar
    obtain ⟨evs1, hp1, hrun1⟩ := run E1 sched1 hE1 hpar
    obtain ⟨hn1, hm1⟩ := rows E1 hE1 evs1 hp1
    have hperm : ((E1.range (evs1.foldl rosterApply [])).map rosterRow).Perm
        ((E.range (evs.foldl rosterApply [])).map rosterRow) :=
      (List.perm_ext_iff_of_nodup (List.Nodup.of_map _ hn1) (List.Nodup.of_map _ hn)).2
        (fun row => (hm1 row).trans (hm row).symm)
    rw [hrun1, sortSlice_congr E1 E hE1 hE _ _ hperm hn1]

/-! ## `shiftsUser` -/

theorem findUser_done (E : Env) (name : String) :
    ∀ ps : List (Option entryUser), ps.all Option.isSome = true →
      findUser E name ps
        = .done ((ps.filterMap id).find? (fun u => E.Contains (E.ToLower u.Name) name)) := by
  intro ps
  induction ps with
  | nil => intro _; rfl
  | cons p rest ih =>
    intro h
    rw [List.all_cons, Bool.and_eq_true] at h
    cases p with
    | none => simp at h
    | some u =>
      by_cases hc : E.Contains (E.ToLower u.Name) name = true
      · simp [findUser, deref, Outcome.bind, hc]
      · simp [findUser, deref, Outcome.bind, hc, ih h.2]

theorem userWrites_rows (E : Env) (shift userID : String) :
    ∀ ps : List (Option scheduleEntry), ps.all entryWellFormed = true →
      ∃ ws, userWrites E shift userID ps = .done ws ∧
        ws.filterMap UserWrite.row?
          = ((ps.filterMap id).filter (fun en => entryUserID en = userID)).map
              (userRowOf E shift) := by
  intro ps
  induction ps with
  | nil => intro _; exact ⟨[], rfl, rfl⟩
  | cons p rest ih =>
    intro h
    rw [List.all_cons, Bool.and_eq_true] at h
    obtain ⟨ws, hws, hrows⟩ := ih h.2
    cases p with
    | none => simp [entryWellFormed] at h
    | some en =>
      obtain ⟨s, e, u⟩ := en
      cases u with
      | none => simp [entryWellFormed] at h
      | some u =>
        by_cases hid : u.ID = userID
        · refine ⟨UserWrite.append (userRowOf E shift ⟨s, e, some u⟩) :: ws, ?_, ?_⟩
          · simp [userWrites, deref, Outcome.bind, hws, hid, userRowOf]
          · simp [UserWrite.row?, hrows, entryUserID, hid]
        · refine ⟨ws, ?_, ?_⟩
          · simp [userWrites, deref, Outcome.bind, hws, hid]
          · simp [hrows, entryUserID, hid]

theorem userWorker_rows (E : Env) (getSchedule : Fetcher) (name startdate enddate token : String)
    (w : String × String)
    (hwf : ∀ r, getSchedule w.1 w.2 startdate enddate token = .ok r →
      usersWellFormed r = true) :
    ∃ ws, userWorker E getSchedule (E.ToLower name) startdate enddate token w = .done ws ∧
      ws.filterMap UserWrite.row?
        = userRowsOwed E getSchedule name startdate enddate token w := by
  unfold userWorker userRowsOwed
  cases hg : getSchedule w.1 w.2 startdate enddate token with
  | error e => exact ⟨[], rfl, rfl⟩
  | ok r =>
    have h := hwf r hg
    obtain ⟨ps⟩ := r
    cases ps with
    | none => simp [usersWellFormed, entriesWellFormed] at h
    | some ps =>
      obtain ⟨fs, oc, us⟩ := ps
      cases fs with
      | none => simp [usersWellFormed, entriesWellFormed] at h
      | some fs =>
        simp only [usersWellFormed, entriesWellFormed, Bool.and_eq_true] at h
        simp only [deref, Outcome.bind, findUser_done E _ us h.2, usersOf, entriesOf]
        cases hf : (us.filterMap id).find?
            (fun u => E.Contains (E.ToLower u.Name) (E.ToLower name)) with
        | none => exact ⟨[], rfl, rfl⟩
        | some u =>
          by_cases hid : u.ID = ""
          · simp only [hid, if_true]
            exact ⟨_, rfl, rfl⟩
          · simp only [hid, if_false]
            obtain ⟨ws, hws, hrows⟩ := userWrites_rows E w.1 u.ID fs.RenderedScheduleEntries h.1
            refine ⟨UserWrite.setName u.Name :: ws, ?_, ?_⟩
            · simp [hws, Outcome.bind]
            · simpa [UserWrite.row?] using hrows

theorem userApply_fold (evs : List UserWrite) :
    ∀ st : String × List Row,
      (evs.foldl userApply st).2 = st.2 ++ evs.filterMap UserWrite.row? := by
  induction evs with
  | nil => intro st; simp
  | cons e evs ih =>
    intro st
    rw [List.foldl_cons, ih]
    cases e with
    | setName n => simp [userApply, UserWrite.row?]
    | append r => simp [userApply, UserWrite.row?]

theorem collect_exists {α β : Type} (f : α → Outcome (List β)) (g : α → List Row)
    (p : β → Option Row) :
    ∀ (l : List α), (∀ x ∈ l, ∃ ws, f x = .done ws ∧ ws.filterMap p = g x) →
      ∃ qs, collect (l.map f) = .done qs ∧ qs.flatten.filterMap p = (l.map g).flatten := by
  intro l
  induction l with
  | nil => intro _; exact ⟨[], rfl, rfl⟩
  | cons x xs ih =>
    intro h
    obtain ⟨ws, hws, hg⟩ := h x (List.mem_cons_self _ _)
    obtain ⟨qs, hqs, hgs⟩ := ih (fun y hy => h y (List.mem_cons_of_mem _ hy))
    refine ⟨ws :: qs, ?_, ?_⟩
    · simp only [List.map_cons, collect, hws, hqs, Outcome.bind]
    · simp [List.filterMap_append, hg, hgs]

theorem userRowsOwed_congr (E E1 : Env) (h1 : E1.ToLower = E.ToLower)
    (h2 : E1.Contains = E.Contains) (h3 : E1.Parse = E.Parse) (getSchedule : Fetcher)
    (name startdate enddate token : String) :
    userRowsOwed E1 getSchedule name startdate enddate token
      = userRowsOwed E getSchedule name startdate enddate token := by
  have hw : userRowOf E1 = userRowOf E := by
    funext shift en
    simp only [userRowOf, startText, convertTime, weekday, parseTime, h3]
  funext w
  unfold userRowsOwed
  rw [h1, h2, hw]

theorem shiftsUser_run (E : Env) (hE : E.Sound) (getSchedule : Fetcher)
    (shifts : GoMap String) (name startdate enddate token : String) (sched : List Nat)
    (hwf : ∀ w ∈ shifts, ∀ r, getSchedule w.1 w.2 startdate enddate token = .ok r →
      usersWellFormed r = true) :
    ∃ (who : String) (data : List Row),
      data.Perm ((shifts.map (userRowsOwed E getSchedule name startdate enddate token)).flatten) ∧
      shiftsUser E getSchedule shifts name startdate enddate token sched
        = .done ⟨who, ⟨[Cell.str "Start", Cell.str "Day", Cell.str "Shift"],
            E.sortSlice lessByFirst data⟩⟩ := by
  have hr := hE.2 _ shifts
  obtain ⟨qs, hqs, hflat⟩ := collect_exists
    (userWorker E getSchedule (E.ToLower name) startdate enddate token)
    (userRowsOwed E getSchedule name startdate enddate token) UserWrite.row? (E.range shifts)
    (fun w hw => userWorker_rows E getSchedule name startdate enddate token w
      (hwf w (hr.mem_iff.1 hw)))
  refine ⟨((interleave qs sched).foldl userApply ("", [])).1,
    ((interleave qs sched).foldl userApply ("", [])).2, ?_, ?_⟩
  · rw [userApply_fold]
    simp only [List.nil_append]
    refine ((interleave_perm sched qs).filterMap UserWrite.row?).trans ?_
    rw [hflat]
    exact (hr.map _).flatten
  · simp only [shiftsUser, hqs, Outcome.bind]

/-- C7, amended: with well-formed responses `shiftsUser` renders, for every
order of the workers, a rearrangement of the same rows {start, day, shift} in
non-descending order of start; the sequence of rows itself is the same for
every order when no two of the rows share a start. This holds whatever
timestamps `time.Parse` accepts; runs are compared under the same library
routines `ToLower`, `Contains` and `Parse`. -/
theorem shiftsUser_rows (E : Env) (hE : E.Sound) (getSchedule : Fetcher)
    (shifts : GoMap String) (name startdate enddate token : String) (sched : List Nat)
    (hwf : ∀ w ∈ shifts, ∀ r, getSchedule w.1 w.2 startdate enddate token = .ok r →
      usersWellFormed r = true) :
    ∃ rep, shiftsUser E getSchedule shifts name startdate enddate token sched = .done rep ∧
      rep.table.fields = [Cell.str "Start", Cell.str "Day", Cell.str "Shift"] ∧
      rep.table.data.Perm
        ((shifts.map (userRowsOwed E getSchedule name startdate enddate token)).flatten) ∧
      rep.table.data.Pairwise (fun a b => ¬ b.key.data < a.key.data) ∧
      ((((shifts.map (userRowsOwed E getSchedule name startdate enddate token)).flatten).map
          Row.key).Nodup →
        ∀ (E1 : Env) (sched1 : List Nat), E1.Sound → E1.ToLower = E.ToLower →
          E1.Contains = E.Contains → E1.Parse = E.Parse →
          ∃ rep1, shiftsUser E1 getSchedule shifts name startdate enddate token sched1
              = .done rep1 ∧ rep1.table = rep.table) := by
  obtain ⟨who, data, hp, hrun⟩ :=
    shiftsUser_run E hE getSchedule shifts name startdate enddate token sched hwf
  obtain ⟨hsp, hss⟩ := hE.1 lessByFirst lessByFirst_strictWeak data
  refine ⟨_, hrun, rfl, hsp.trans hp, ?_, ?_⟩
  · refine hss.imp ?_
    intro a b h
    simpa [lessByFirst, strLess] using h
  · intro hn E1 sched1 hE1 h1 h2 h3
    obtain ⟨who1, data1, hp1, hrun1⟩ :=
      shiftsUser_run E1 hE1 getSchedule shifts name startdate enddate token sched1 hwf
    rw [userRowsOwed_congr E E1 h1 h2 h3] at hp1
    refine ⟨_, hrun1, ?_⟩
    have := sortSlice_congr E1 E hE1 hE data1 data (hp1.trans hp.symm)
      ((hp1.map Row.key).nodup_iff.2 hn)
    simp only [this]

/-! ## `shiftReport` -/

theorem cnt_bump (m : GoMap (GoMap Nat)) (u f u1 f1 : String) :
    cnt (bump m u f) u1 f1
      = if u1 = u ∧ f1 = f then (cnt m u f + 1) % uintMod else cnt m u1 f1 := by
  unfold cnt bump
  simp only
  by_cases hu : u1 = u
  · subst hu
    rw [GoMap.get_set_self]
    by_cases hf : f1 = f
    · subst hf
      simp [GoMap.getNat, GoMap.get_set_self]
    · have hf2 : f ≠ f1 := fun h => hf h.symm
      simp [GoMap.getNat, GoMap.get_set_ne _ _ _ _ hf2, hf]
  · have hu2 : u ≠ u1 := fun h => hu h.symm
    simp [GoMap.get_set_ne _ _ _ _ hu2, hu]

theorem cnt_init (m : GoMap (GoMap Nat)) (u u1 f1 : String)
    (h : (GoMap.get m u).isNone = true) :
    cnt (GoMap.set m u []) u1 f1 = cnt m u1 f1 := by
  unfold cnt
  by_cases hu : u1 = u
  · subst hu
    rw [GoMap.get_set_self]
    rw [Option.isNone_iff_eq_none] at h
    rw [h]
    rfl
  · have hu2 : u ≠ u1 := fun h => hu h.symm
    rw [GoMap.get_set_ne _ _ _ _ hu2]

theorem bump_keys_nodup (m : GoMap (GoMap Nat)) (u f : String)
    (hn : (m.map Prod.fst).Nodup) : ((bump m u f).map Prod.fst).Nodup :=
  GoMap.keys_set_nodup _ _ _ hn

theorem bump_mem_keys (m : GoMap (GoMap Nat)) (u f k : String) :
    k ∈ (bump m u f).map Prod.fst ↔ k ∈ m.map Prod.fst ∨ k = u :=
  GoMap.mem_keys_set _ _ _ _

theorem GoMap.get_of_mem {ν : Type} (m : GoMap ν) (kv : String × ν)
    (hn : (m.map Prod.fst).Nodup) (h : kv ∈ m) : GoMap.get m kv.1 = some kv.2 := by
  induction m with
  | nil => cases h
  | cons kv1 rest ih =>
    obtain ⟨k1, v1⟩ := kv1
    rw [List.map_cons, List.nodup_cons] at hn
    rcases List.mem_cons.1 h with h | h
    · subst h
      simp [GoMap.get]
    · have hne : ¬ k1 = kv.1 := by
        intro hk
        exact hn.1 (List.mem_map.2 ⟨kv, h, hk.symm⟩)
      simp [GoMap.get, hne, ih hn.2 h]

theorem weekend_iff {E : Env} {en : scheduleEntry} {tm : Time}
    (h : parseTime E en.Start = some tm) :
    ((weekday E en.Start).1 = 0 ∨ (weekday E en.Start).1 = 6) ↔
      startsOnWeekend E en = true := by
  simp only [weekday, h, startsOnWeekend, decide_eq_true_eq]
  tauto

theorem holiday_iff (E : Env) {en : scheduleEntry} {tm : Time}
    (h : parseTime E en.Start = some tm) :
    (holidays E en.Start).1.length > 0 ↔ startsOnHoliday E en = true := by
  simp only [holidays, h, startsOnHoliday]
  cases E.cals.cUK.IsHoliday (tm.dayNum : Int) <;> cases E.cals.cUS.IsHoliday (tm.dayNum : Int) <;>
    cases E.cals.cSG.IsHoliday (tm.dayNum : Int) <;> simp

theorem countFor_snoc (p : scheduleEntry → Bool) (seen : List scheduleEntry)
    (en : scheduleEntry) (u : String) :
    countFor p (seen ++ [en]) u
      = countFor p seen u + (if entryName en = u ∧ p en = true then 1 else 0) := by
  unfold countFor
  rw [List.filter_append, List.length_append]
  congr 1
  by_cases h1 : entryName en = u <;> by_cases h2 : p en = true <;>
    simp [List.filter, h1, h2]

theorem succ_mod_uint (c : Nat) : (c % uintMod + 1) % uintMod = (c + 1) % uintMod := by
  have hM : uintMod = 18446744073709551616 := by norm_num [uintMod]
  rw [hM]
  omega

theorem GoMap.mem_keys_of_get {ν : Type} (m : GoMap ν) (k : String)
    (h : ¬ (GoMap.get m k).isNone = true) : k ∈ m.map Prod.fst := by
  induction m with
  | nil => simp [GoMap.get] at h
  | cons kv rest ih =>
    obtain ⟨k1, v1⟩ := kv
    by_cases hk : k1 = k
    · simp [hk]
    · simp only [GoMap.get, hk, if_false] at h
      exact List.mem_cons_of_mem _ (ih h)

/-- The map after the test `parsedSchedule[name] == nil`. -/
theorem nilTest (m : GoMap (GoMap Nat)) (k : String) (hn : (m.map Prod.fst).Nodup) :
    ((if (GoMap.get m k).isNone = true then GoMap.set m k [] else m).map Prod.fst).Nodup ∧
    (∀ k1, k1 ∈ (if (GoMap.get m k).isNone = true then GoMap.set m k [] else m).map Prod.fst ↔
      k1 ∈ m.map Prod.fst ∨ k1 = k) ∧
    (∀ x f, cnt (if (GoMap.get m k).isNone = true then GoMap.set m k [] else m) x f
      = cnt m x f) := by
  by_cases h : (GoMap.get m k).isNone = true
  · simp only [h, if_true]
    exact ⟨GoMap.keys_set_nodup _ _ _ hn, fun k1 => GoMap.mem_keys_set _ _ _ _,
      fun x f => cnt_init m k x f h⟩
  · simp only [h, if_false]
    refine ⟨hn, fun k1 => ⟨Or.inl, ?_⟩, fun _ _ => rfl⟩
    rintro (h1 | rfl)
    · exact h1
    · exact GoMap.mem_keys_of_get m _ h

/-- A conditional increment `if c { m[u][f]++ }`. -/
theorem bumpIf (P : Prop) [Decidable P] (m : GoMap (GoMap Nat)) (u f : String)
    (hn : (m.map Prod.fst).Nodup) (hu : u ∈ m.map Prod.fst) :
    ((if P then bump m u f else m).map Prod.fst).Nodup ∧
    (∀ k, k ∈ (if P then bump m u f else m).map Prod.fst ↔ k ∈ m.map Prod.fst) ∧
    (∀ x g, cnt (if P then bump m u f else m) x g
      = if P ∧ x = u ∧ g = f then (cnt m u f + 1) % uintMod else cnt m x g) := by
  by_cases h : P
  · simp only [h, if_true, true_and]
    refine ⟨bump_keys_nodup _ _ _ hn, fun k => ?_, fun x g => cnt_bump m u f x g⟩
    rw [bump_mem_keys]
    constructor
    · rintro (h1 | rfl)
      · exact h1
      · exact hu
    · exact Or.inl
  · simp only [h, if_false, false_and]
    exact ⟨hn, by simp⟩

theorem reportStep_inv (E : Env) (m : GoMap (GoMap Nat)) (seen : List scheduleEntry)
    (en : scheduleEntry) (user : entryUser) (tm : Time)
    (hu : en.EntryUser = some user) (htm : parseTime E en.Start = some tm)
    (hinv : ReportInv E m seen) :
    ∃ m1, reportStep E m (some en) = .done m1 ∧ ReportInv E m1 (seen ++ [en]) := by
  obtain ⟨hn, hk, hc⟩ := hinv
  have hname : entryName en = user.Name := by simp [entryName, hu]
  have hstep : reportStep E m (some en) = .done
      (if (holidays E en.Start).1.length > 0 then
        bump (if (weekday E en.Start).1 = 0 ∨ (weekday E en.Start).1 = 6 then
          bump (bump (if (GoMap.get m user.Name).isNone = true then GoMap.set m user.Name []
            else m) user.Name "oncall") user.Name "weekends"
          else bump (if (GoMap.get m user.Name).isNone = true then GoMap.set m user.Name []
            else m) user.Name "oncall") user.Name "holidays"
       else (if (weekday E en.Start).1 = 0 ∨ (weekday E en.Start).1 = 6 then
          bump (bump (if (GoMap.get m user.Name).isNone = true then GoMap.set m user.Name []
            else m) user.Name "oncall") user.Name "weekends"
          else bump (if (GoMap.get m user.Name).isNone = true then GoMap.set m user.Name []
            else m) user.Name "oncall")) := by
    simp only [reportStep, deref, Outcome.bind, hu]
  refine ⟨_, hstep, ?_⟩
  obtain ⟨hn0, hk0, hc0⟩ := nilTest m user.Name hn
  generalize (if (GoMap.get m user.Name).isNone = true then GoMap.set m user.Name []
    else m) = m0 at hn0 hk0 hc0 ⊢
  -- after `oncall++`
  have hn1 := bump_keys_nodup m0 user.Name "oncall" hn0
  have hk1 : ∀ k, k ∈ (bump m0 user.Name "oncall").map Prod.fst ↔
      k ∈ m.map Prod.fst ∨ k = user.Name := by
    intro k
    rw [bump_mem_keys, hk0]
    tauto
  have hc1 := cnt_bump m0 user.Name "oncall"
  generalize bump m0 user.Name "oncall" = m1 at hn1 hk1 hc1 ⊢
  have hu1 : user.Name ∈ m1.map Prod.fst := (hk1 _).2 (Or.inr rfl)
  -- after the weekend test
  obtain ⟨hn2, hk2, hc2⟩ := bumpIf ((weekday E en.Start).1 = 0 ∨ (weekday E en.Start).1 = 6)
    m1 user.Name "weekends" hn1 hu1
  generalize (if (weekday E en.Start).1 = 0 ∨ (weekday E en.Start).1 = 6 then
    bump m1 user.Name "weekends" else m1) = m2 at hn2 hk2 hc2 ⊢
  have hu2 : user.Name ∈ m2.map Prod.fst := (hk2 _).2 hu1
  -- after the holiday test
  obtain ⟨hn3, hk3, hc3⟩ := bumpIf ((holidays E en.Start).1.length > 0)
    m2 user.Name "holidays" hn2 hu2
  generalize (if (holidays E en.Start).1.length > 0 then
    bump m2 user.Name "holidays" else m2) = m3 at hn3 hk3 hc3 ⊢
  have hwk := weekend_iff htm
  have hhol := holiday_iff E htm
  refine ⟨hn3, ?_, ?_⟩
  · intro k
    rw [hk3, hk2, hk1, hk k]
    constructor
    · rintro (⟨x, hx, h⟩ | h)
      · exact ⟨x, List.mem_append_left _ hx, h⟩
      · exact ⟨en, by simp, by rw [hname, h]⟩
    · rintro ⟨x, hx, h⟩
      rcases List.mem_append.1 hx with hx | hx
      · exact Or.inl ⟨x, hx, h⟩
      · simp only [List.mem_singleton] at hx
        subst hx
        exact Or.inr (by rw [← h, hname])
  · intro u
    obtain ⟨c1, c2, c3⟩ := hc u
    have d1 := (hc user.Name).1
    have d2 := (hc user.Name).2.1
    have d3 := (hc user.Name).2.2
    have e1 : ¬ ("oncall" = "weekends") := by decide
    have e2 : ¬ ("oncall" = "holidays") := by decide
    have e4 : ¬ ("weekends" = "holidays") := by decide
    have e3 : ¬ ("weekends" = "oncall") := by decide
    have e5 : ¬ ("holidays" = "oncall") := by decide
    have e6 : ¬ ("holidays" = "weekends") := by decide
    rw [countFor_snoc, countFor_snoc, countFor_snoc, hname]
    simp only [hc3, hc2, hc1, hc0, e1, e2, e3, e4, e5, e6, and_false, and_true, if_false,
      hwk, hhol, c1, c2, c3, d1, d2, d3, succ_mod_uint]
    by_cases hx : u = user.Name
    · subst hx
      refine ⟨by simp, ?_, ?_⟩
      · by_cases hw : startsOnWeekend E en = true <;> simp [hw]
      · by_cases hh : startsOnHoliday E en = true <;> simp [hh]
    · have hx2 : ¬ user.Name = u := fun h => hx h.symm
      simp [hx, hx2]

theorem reportLoop_inv (E : Env) :
    ∀ (ps : List (Option scheduleEntry)) (seen : List scheduleEntry) (m : GoMap (GoMap Nat)),
      ps.all entryWellFormed = true →
      (∀ en ∈ ps.filterMap id, (parseTime E en.Start).isSome = true) →
      ReportInv E m seen →
      ∃ m1, reportLoop E m ps = .done m1 ∧ ReportInv E m1 (seen ++ ps.filterMap id) := by
  intro ps
  induction ps with
  | nil =>
    intro seen m _ _ hinv
    exact ⟨m, rfl, by simpa using hinv⟩
  | cons p rest ih =>
    intro seen m hwf hparse hinv
    rw [List.all_cons, Bool.and_eq_true] at hwf
    cases p with
    | none => simp [entryWellFormed] at hwf
    | some en =>
      cases hu : en.EntryUser with
      | none => simp [entryWellFormed, hu] at hwf
      | some user =>
        obtain ⟨tm, htm⟩ := Option.isSome_iff_exists.1 (hparse en (by simp))
        obtain ⟨m1, h1, inv1⟩ := reportStep_inv E m seen en user tm hu htm hinv
        have hparse2 : ∀ x ∈ rest.filterMap id, (parseTime E x.Start).isSome = true := by
          intro x hx
          refine hparse x ?_
          simp only [List.filterMap_cons, id]
          exact List.mem_cons_of_mem en hx
        obtain ⟨m2, h2, inv2⟩ := ih (seen ++ [en]) m1 hwf.2 hparse2 inv1
        refine ⟨m2, ?_, ?_⟩
        · rw [reportLoop, h1]
          exact h2
        · simpa [List.append_assoc] using inv2

theorem lessByTotalDesc_strictWeak : StrictWeak lessByTotalDesc where
  irrefl := by
    intro a
    simp [lessByTotalDesc]
  trans := by
    intro a b c h1 h2
    simp only [lessByTotalDesc, decide_eq_true_eq] at *
    omega
  incomp := by
    intro a b c h1 h2
    simp only [lessByTotalDesc, decide_eq_false_iff_not] at *
    omega

theorem countFor_le (p : scheduleEntry → Bool) (entries : List scheduleEntry) (name : String) :
    countFor p entries name ≤ countFor (fun _ => true) entries name ∧
      countFor p entries name ≤ entries.length := by
  unfold countFor
  constructor
  · have : ∀ l : List scheduleEntry,
        (l.filter (fun en => decide (entryName en = name) && p en)).length
          ≤ (l.filter (fun en => decide (entryName en = name) && true)).length := by
      intro l
      induction l with
      | nil => simp
      | cons x xs ih =>
        by_cases h1 : entryName x = name <;> by_cases h2 : p x = true <;>
          simp [List.filter, h1, h2] at ih ⊢ <;> omega
    exact this entries
  · exact List.length_filter_le _ _

/-- C3, amended: for a fetched response whose entries name their users and whose
starts all parse (whatever timestamps `time.Parse` accepts), `shiftReport`
renders exactly one row per user name that occurs; the
row holds the number of that user's entries that start on a Saturday or Sunday
(WEEKEND), the number whose holiday set is non-empty (HOLIDAY) and the number
of all of them (TOTAL), so WEEKEND and HOLIDAY never exceed TOTAL; the rows are
in non-ascending order of TOTAL. -/
theorem shiftReport_rows (E : Env) (hE : E.Sound) (getSchedule : Fetcher)
    (shift shiftID startdate enddate token : String) (r : pagerdutyScheduleResponse)
    (hg : getSchedule shift shiftID startdate enddate token = .ok r)
    (hwf : entriesWellFormed r = true) (hparse : startsParse E r = true)
    (hlen : (entriesOf r).length < uintMod) :
    ∃ t, shiftReport E getSchedule shift shiftID startdate enddate token = .done t ∧
      t.fields = [Cell.str "ENGINEER", Cell.str "SHIFT", Cell.str "WEEKEND",
        Cell.str "HOLIDAY", Cell.str "TOTAL"] ∧
      (t.data.map Row.key).Nodup ∧
      (∀ row, row ∈ t.data ↔ ∃ en ∈ entriesOf r,
        row = reportRowOwed E shift (entriesOf r) (entryName en)) ∧
      (∀ name, countFor (startsOnWeekend E) (entriesOf r) name
          ≤ countFor (fun _ => true) (entriesOf r) name ∧
        countFor (startsOnHoliday E) (entriesOf r) name
          ≤ countFor (fun _ => true) (entriesOf r) name) ∧
      t.data.Pairwise (fun a b => b.total ≤ a.total) := by
  obtain ⟨ps⟩ := r
  cases ps with
  | none => simp [entriesWellFormed] at hwf
  | some ps =>
    obtain ⟨fs, oc, us⟩ := ps
    cases fs with
    | none => simp [entriesWellFormed] at hwf
    | some fs =>
      simp only [entriesWellFormed] at hwf
      simp only [startsParse, entriesOf, List.all_eq_true] at hparse
      simp only [entriesOf] at hlen ⊢
      have inv0 : ReportInv E [] [] := by
        refine ⟨by simp, by simp, fun u => ?_⟩
        simp [cnt, GoMap.get, GoMap.getNat, countFor]
      obtain ⟨m, hm, hn, hk, hc⟩ :=
        reportLoop_inv E fs.RenderedScheduleEntries [] [] hwf hparse inv0
      simp only [List.nil_append] at hk hc
      have hr := hE.2 _ m
      obtain ⟨hsp, hss⟩ := hE.1 lessByTotalDesc lessByTotalDesc_strictWeak
        ((E.range m).map (reportRow shift))
      -- a row of the map is the row owed to its key
      have hrow : ∀ kv ∈ m, reportRow shift kv
          = reportRowOwed E shift (fs.RenderedScheduleEntries.filterMap id) kv.1 := by
        intro kv hkv
        have hget := GoMap.get_of_mem m kv hn hkv
        obtain ⟨c1, c2, c3⟩ := hc kv.1
        have hsmall : ∀ p, countFor p (fs.RenderedScheduleEntries.filterMap id) kv.1 % uintMod
            = countFor p (fs.RenderedScheduleEntries.filterMap id) kv.1 := fun p =>
          Nat.mod_eq_of_lt (lt_of_le_of_lt (countFor_le p _ _).2 hlen)
        simp only [cnt, hget, Option.getD_some, hsmall] at c1 c2 c3
        simp only [reportRow, reportRowOwed, c1, c2, c3]
      have hrun : shiftReport E getSchedule shift shiftID startdate enddate token
          = .done ⟨[Cell.str "ENGINEER", Cell.str "SHIFT", Cell.str "WEEKEND",
              Cell.str "HOLIDAY", Cell.str "TOTAL"],
            E.sortSlice lessByTotalDesc ((E.range m).map (reportRow shift))⟩ := by
        unfold shiftReport
        rw [hg]
        simp only [deref, Outcome.bind, hm]
      refine ⟨_, hrun, rfl, ?_, ?_, ?_, ?_⟩
      · have hkeys : ((E.range m).map (reportRow shift)).map Row.key
            = (E.range m).map Prod.fst := by
          rw [List.map_map]
          rfl
        exact ((hsp.map Row.key).nodup_iff).2 (hkeys ▸ ((hr.map Prod.fst).nodup_iff.2 hn))
      · intro row
        show row ∈ E.sortSlice lessByTotalDesc _ ↔ _
        rw [hsp.mem_iff, List.mem_map]
        constructor
        · rintro ⟨kv, hkv, rfl⟩
          have hkv1 := hr.mem_iff.1 hkv
          obtain ⟨en, hen, hname⟩ := (hk kv.1).1 (List.mem_map.2 ⟨kv, hkv1, rfl⟩)
          exact ⟨en, hen, by rw [hname, hrow kv hkv1]⟩
        · rintro ⟨en, hen, rfl⟩
          obtain ⟨kv, hkv, hkey⟩ := List.mem_map.1 ((hk (entryName en)).2 ⟨en, hen, rfl⟩)
          exact ⟨kv, hr.mem_iff.2 hkv, by rw [hrow kv hkv, hkey]⟩
      · intro name
        exact ⟨(countFor_le _ _ _).1, (countFor_le _ _ _).1⟩
      · refine hss.imp ?_
        intro a b h
        simpa [lessByTotalDesc] using h

/-! ## `sprintPoints` and `OpsRoster` -/

theorem sprintEntries_empty (m : GoMap Nat) :
    ∀ ps : List (Option scheduleEntry), ps.all entryWellFormed = true →
      sprintEntries [] m ps = .done m := by
  intro ps
  induction ps with
  | nil => intro _; rfl
  | cons p rest ih =>
    intro h
    rw [List.all_cons, Bool.and_eq_true] at h
    cases p with
    | none => simp [entryWellFormed] at h
    | some en =>
      cases hu : en.EntryUser with
      | none => simp [entryWellFormed, hu] at h
      | some u => simp [sprintEntries, deref, Outcome.bind, hu, GoMap.get, ih h.2]

theorem sprintShifts_empty (getSchedule : Fetcher) (startdate enddate token : String)
    (m : GoMap Nat) :
    ∀ ws : List (String × String),
      (∀ w ∈ ws, ∀ r, getSchedule w.1 w.2 startdate enddate token = .ok r →
        entriesWellFormed r = true) →
      sprintShifts getSchedule [] startdate enddate token m ws = .done m := by
  intro ws
  induction ws with
  | nil => intro _; rfl
  | cons w rest ih =>
    intro h
    have ih1 := ih (fun x hx => h x (List.mem_cons_of_mem _ hx))
    rw [sprintShifts]
    cases hg : getSchedule w.1 w.2 startdate enddate token with
    | error e => exact ih1
    | ok r =>
      have hwf := h w (List.mem_cons_self _ _) r hg
      obtain ⟨ps⟩ := r
      cases ps with
      | none => simp [entriesWellFormed] at hwf
      | some ps =>
        obtain ⟨fs, oc, us⟩ := ps
        cases fs with
        | none => simp [entriesWellFormed] at hwf
        | some fs =>
          simp only [entriesWellFormed] at hwf
          simp only [deref, Outcome.bind, sprintEntries_empty m _ hwf, ih1]

theorem opsEntries_empty (E : Env) (shift : String) (st : OpsState) :
    ∀ ps : List (Option scheduleEntry), ps.all entryWellFormed = true →
      opsEntries E [] shift st ps = .done st := by
  intro ps
  induction ps with
  | nil => intro _; rfl
  | cons p rest ih =>
    intro h
    rw [List.all_cons, Bool.and_eq_true] at h
    cases p with
    | none => simp [entryWellFormed] at h
    | some en =>
      cases hu : en.EntryUser with
      | none => simp [entryWellFormed, hu] at h
      | some u => simp [opsEntries, deref, Outcome.bind, hu, GoMap.get, ih h.2]

theorem opsShifts_empty (E : Env) (getSchedule : Fetcher) (startdate enddate token : String)
    (st : OpsState) :
    ∀ ws : List (String × String),
      (∀ w ∈ ws, ∀ r, getSchedule w.1 w.2 startdate enddate token = .ok r →
        entriesWellFormed r = true) →
      opsShifts E getSchedule [] startdate enddate token st ws = .done st := by
  intro ws
  induction ws with
  | nil => intro _; rfl
  | cons w rest ih =>
    intro h
    have ih1 := ih (fun x hx => h x (List.mem_cons_of_mem _ hx))
    rw [opsShifts]
    cases hg : getSchedule w.1 w.2 startdate enddate token with
    | error e => exact ih1
    | ok r =>
      have hwf := h w (List.mem_cons_self _ _) r hg
      obtain ⟨ps⟩ := r
      cases ps with
      | none => simp [entriesWellFormed] at hwf
      | some ps =>
        obtain ⟨fs, oc, us⟩ := ps
        cases fs with
        | none => simp [entriesWellFormed] at hwf
        | some fs =>
          simp only [entriesWellFormed] at hwf
          simp only [deref, Outcome.bind, opsEntries_empty E w.1 st _ hwf, ih1]

theorem range_nil (E : Env) (hE : E.Sound) (ν : Type) : E.range ([] : GoMap ν) = [] :=
  (hE.2 ν []).eq_nil

theorem sortSlice_nil (E : Env) (hE : E.Sound) : E.sortSlice lessByFirst [] = [] :=
  (hE.1 lessByFirst lessByFirst_strictWeak []).1.eq_nil

/-- C8, amended: with the allow-list `ids` empty, for responses that carry their
entries with users, `OpsRoster` renders two tables without data rows and with
no user column, whatever the dates; and `sprintPoints`, for every pair of
parsable dates, renders a table without data rows once the loop of `workDays`
has returned, with the number of business days of the range when the start
is on or before the end. -/
theorem sprint_and_ops_render_no_rows (E : Env) (hE : E.Sound) (getSchedule : Fetcher)
    (shifts : GoMap String) (startdate enddate token : String)
    (hwf : ∀ w ∈ shifts, ∀ r, getSchedule w.1 w.2 startdate enddate token = .ok r →
      entriesWellFormed r = true) :
    OpsRoster E getSchedule shifts startdate enddate token
      = .done (⟨[Cell.str "DATE", Cell.str "DAY"], []⟩,
          ⟨[Cell.str "user", Cell.str "# ops", Cell.str "% ops", Cell.str "# bau",
            Cell.str "% bau", Cell.str "# tactical", Cell.str "% tactical"], []⟩) ∧
    (∀ t1 t2 : Nat, parseDate startdate = some t1 → parseDate enddate = some t2 →
      (∀ fuel, (if t1 ≤ t2 then t2 + 1 - t1 else 2 ^ 57 - (t1 - t2) + 1) ≤ fuel →
        ∃ sprintDays, sprintPoints E getSchedule fuel shifts startdate enddate token
          = .done ⟨sprintDays,
              ⟨[Cell.str "engineer", Cell.str "oncall days", Cell.str "off shift days",
                Cell.str "tactical %", Cell.str "suggested SP"], []⟩⟩) ∧
      (t1 ≤ t2 → ∀ fuel, t2 + 1 - t1 ≤ fuel →
        sprintPoints E getSchedule fuel shifts startdate enddate token
          = .done ⟨businessDaysBetween E.cals.cUK t1 t2,
              ⟨[Cell.str "engineer", Cell.str "oncall days", Cell.str "off shift days",
                Cell.str "tactical %", Cell.str "suggested SP"], []⟩⟩)) := by
  have hr := hE.2 _ shifts
  have hwf1 : ∀ w ∈ E.range shifts, ∀ r,
      getSchedule w.1 w.2 startdate enddate token = .ok r → entriesWellFormed r = true :=
    fun w hw => hwf w (hr.mem_iff.1 hw)
  have hafter : ∀ fuel sprintDays,
      workDays E.cals.cUK fuel startdate enddate = .done sprintDays →
      sprintPoints E getSchedule fuel shifts startdate enddate token
        = .done ⟨sprintDays,
            ⟨[Cell.str "engineer", Cell.str "oncall days", Cell.str "off shift days",
              Cell.str "tactical %", Cell.str "suggested SP"], []⟩⟩ := by
    intro fuel sprintDays hw
    simp only [sprintPoints, hw, Outcome.bind,
      sprintShifts_empty getSchedule startdate enddate token [] _ hwf1,
      range_nil E hE, List.map_nil, sortSlice_nil E hE]
  refine ⟨?_, fun t1 t2 h1 h2 => ⟨?_, ?_⟩⟩
  · simp only [OpsRoster, Outcome.bind,
      opsShifts_empty E getSchedule startdate enddate token _ _ hwf1,
      range_nil E hE, List.map_nil, sortSlice_nil E hE, List.append_nil]
  · intro fuel hf
    obtain ⟨n, hn⟩ := (workDays_fuel E.cals.cUK startdate enddate t1 t2 fuel h1 h2).1.2 hf
    exact ⟨n, hafter fuel n hn⟩
  · intro hle fuel hf
    exact hafter fuel _ (workDays_done E.cals.cUK startdate enddate t1 t2 fuel h1 h2 hle hf)

/-! ## The reports on the example data -/

set_option maxRecDepth 100000 in
/-- C2: two shifts whose entries start at the same time, with Ann and Bob on
call: the table `shiftsRoster` renders has the header START, DAY and one row
with the start and the weekday; neither engineer is in it. -/
theorem shiftsRoster_drops_engineers :
    shiftsRoster goEnv demoFetch demoShifts "2024-01-01" "2024-01-08" "" []
      = .done ⟨[Cell.str "START", Cell.str "DAY"],
          [[Cell.str "2024-01-06 00:00", Cell.str "Saturday"]]⟩ := by
  decide

set_option maxRecDepth 100000 in
/-- Counterexample to C6: with a shift named "day" the row of a start holds the
weekday when the worker of that shift writes first, and the engineer of that
shift when it writes last. -/
theorem shiftsRoster_day_shift_order :
    shiftsRoster goEnv dayFetch dayShifts "" "" "" []
        = .done ⟨[Cell.str "START", Cell.str "DAY"],
            [[Cell.str "2024-01-06 00:00", Cell.str "Saturday"]]⟩ ∧
      shiftsRoster goEnv dayFetch dayShifts "" "" "" [1]
        = .done ⟨[Cell.str "START", Cell.str "DAY"],
            [[Cell.str "2024-01-06 00:00", Cell.str "Ann Lee"]]⟩ := by
  decide

set_option maxRecDepth 100000 in
/-- Counterexample to C7: Ann has an entry with the same start in two shifts;
the two rows come out in the order in which the workers appended them. -/
theorem shiftsUser_ties_follow_workers :
    shiftsUser goEnv annFetch twoShifts "ann" "" "" "" []
        = .done ⟨"Ann Lee", ⟨[Cell.str "Start", Cell.str "Day", Cell.str "Shift"],
            [[Cell.str "2024-01-06 00:00", Cell.str "Saturday", Cell.str "lhr"],
             [Cell.str "2024-01-06 00:00", Cell.str "Saturday", Cell.str "sfo"]]⟩⟩ ∧
      shiftsUser goEnv annFetch twoShifts "ann" "" "" "" [1, 1]
        = .done ⟨"Ann Lee", ⟨[Cell.str "Start", Cell.str "Day", Cell.str "Shift"],
            [[Cell.str "2024-01-06 00:00", Cell.str "Saturday", Cell.str "sfo"],
             [Cell.str "2024-01-06 00:00", Cell.str "Saturday", Cell.str "lhr"]]⟩⟩ := by
  decide

set_option maxRecDepth 100000 in
/-- Counterexample to C8: a decoded response with an entry whose `user` is null.
`OpsRoster` panics on it, and `sprintPoints` renders nothing however long the
loop of `workDays` may run. -/
theorem sprint_and_ops_panic_without_user :
    OpsRoster goEnv orphanFetch twoShifts "2024-01-01" "2024-01-07" "" = .panic ∧
    ¬ ∃ fuel rep, sprintPoints goEnv orphanFetch fuel twoShifts "2024-01-01" "2024-01-07" ""
        = .done rep := by
  refine ⟨by decide, ?_⟩
  rintro ⟨fuel, rep, h⟩
  have hs : sprintShifts orphanFetch [] "2024-01-01" "2024-01-07" "" []
      (goEnv.range twoShifts) = .panic := by decide
  simp only [sprintPoints, hs] at h
  cases hw : workDays goEnv.cals.cUK fuel "2024-01-01" "2024-01-07" <;>
    simp [hw, Outcome.bind] at h

set_option maxRecDepth 100000 in
/-- Counterexample to C1: two shifts, both fetches succeed and both responses
carry a schedule object, one with an on-call object without a user; the report
aborts. -/
theorem shiftNow_aborts_without_user :
    nowFetchFails halfFetch "" ("lhr", "P1") = false ∧
    nowFetchFails halfFetch "" ("sfo", "P2") = false ∧
    shiftNow goEnv halfFetch twoShifts "" [] = .panic := by
  decide

set_option maxRecDepth 100000 in
/-- Counterexample to C3: a list of two entries whose starts parse, the second
without a user; Ann gets no row, the report panics. -/
theorem shiftReport_aborts_without_user :
    startsParse goEnv orphanWeek = true ∧
    shiftReport goEnv orphanFetch "lhr" "P1" "" "" "" = .panic := by
  decide

set_option maxRecDepth 100000 in
/-- C10: a body that decodes without a schedule makes each of the five reports
panic, and so does an on-call object without a user in `shiftNow`. -/
theorem reports_panic_on_missing_objects :
    shiftNow goEnv emptyBodyFetch twoShifts "" [] = .panic ∧
    shiftSchedule goEnv emptyBodyFetch "lhr" "P1" "" "" "" = .panic ∧
    shiftReport goEnv emptyBodyFetch "lhr" "P1" "" "" "" = .panic ∧
    shiftsRoster goEnv emptyBodyFetch twoShifts "" "" "" [] = .panic ∧
    shiftsUser goEnv emptyBodyFetch twoShifts "ann" "" "" "" [] = .panic ∧
    shiftNow goEnv noUserFetch twoShifts "" [] = .panic := by
  decide

theorem demoFetch_ok (call id s e tok : String) (r : pagerdutyScheduleResponse)
    (h : demoFetch call id s e tok = .ok r) : r = saturdayOf ann ∨ r = saturdayOf bob := by
  unfold demoFetch at h
  split at h
  · injection h with h; exact Or.inl h.symm
  · split at h
    · injection h with h; exact Or.inr h.symm
    · cases h

theorem annFetch_ok (call id s e tok : String) (r : pagerdutyScheduleResponse)
    (h : annFetch call id s e tok = .ok r) : r = saturdayOf ann := by
  unfold annFetch at h
  injection h with h
  exact h.symm

/-- Witness of C1: of three shifts one fetch fails; the table has two rows. -/
theorem shiftNow_rows_witness :
    ∃ t, shiftNow goEnv demoFetch demoShifts "" [2, 0] = .done t ∧ t.data.length + 1 = 3 := by
  obtain ⟨t, h, _, _, _, hlen, _⟩ := shiftNow_rows goEnv goEnv_sound demoFetch demoShifts ""
    [2, 0] (by decide)
    (fun w _ r hr => by
      rcases demoFetch_ok _ _ _ _ _ r hr with rfl | rfl <;> rfl)
  exact ⟨t, h, hlen⟩

/-- Witness of C6: the roster of the three example shifts, for two orders of
the workers. -/
theorem shiftsRoster_rows_witness :
    ∃ t, shiftsRoster goEnv demoFetch demoShifts "" "" "" [1, 0] = .done t ∧
      shiftsRoster goEnv demoFetch demoShifts "" "" "" [0, 1] = .done t := by
  obtain ⟨t, h, _, _, _, hall⟩ := shiftsRoster_rows goEnv goEnv_sound goEnv_parseValid
    demoFetch demoShifts "" "" "" [1, 0] (by decide)
    (fun w _ r hr => by
      rcases demoFetch_ok _ _ _ _ _ r hr with rfl | rfl <;> exact ⟨rfl, by decide⟩)
  exact ⟨t, h, hall goEnv [0, 1] goEnv_sound rfl⟩

/-- Witness of C7: Ann's rows over the two example shifts are a rearrangement
of the rows owed, whatever the order of the workers. -/
theorem shiftsUser_rows_witness :
    ∃ rep, shiftsUser goEnv annFetch twoShifts "ann" "" "" "" [1, 1] = .done rep ∧
      rep.table.data.Perm
        ((twoShifts.map (userRowsOwed goEnv annFetch "ann" "" "" "")).flatten) := by
  obtain ⟨rep, h, _, hp, _⟩ := shiftsUser_rows goEnv goEnv_sound annFetch twoShifts
    "ann" "" "" "" [1, 1]
    (fun w _ r hr => by
      rw [annFetch_ok _ _ _ _ _ r hr]
      rfl)
  exact ⟨rep, h, hp⟩

set_option maxRecDepth 100000 in
/-- Witness of C3: Ann has three entries, one on a Saturday and one on a
holiday; her row holds WEEKEND 1, HOLIDAY 1, TOTAL 3. -/
theorem shiftReport_rows_witness :
    ∃ t, shiftReport goEnv weekFetch "lhr" "P1" "" "" "" = .done t ∧
      [Cell.str "Ann Lee", Cell.str "lhr", Cell.uint 1, Cell.uint 1, Cell.uint 3] ∈ t.data := by
  obtain ⟨t, h, _, _, hmem, _⟩ := shiftReport_rows goEnv goEnv_sound weekFetch
    "lhr" "P1" "" "" "" weekOfAnn rfl rfl (by decide)
    (by
      have hlen : (entriesOf weekOfAnn).length = 4 := rfl
      rw [hlen]
      norm_num [uintMod])
  refine ⟨t, h, (hmem _).2
    ⟨⟨"2024-01-01T09:00:00Z", "2024-01-02T09:00:00Z", some ann⟩, by decide, by decide⟩⟩

/-- Witness of C8: over the example shifts `OpsRoster` renders two tables
without rows, and the sprint report of the first week of 2024 has four
business days and no data rows. -/
theorem sprint_and_ops_render_no_rows_witness :
    OpsRoster goEnv demoFetch demoShifts "2024-01-01" "2024-01-07" ""
      = .done (⟨[Cell.str "DATE", Cell.str "DAY"], []⟩,
          ⟨[Cell.str "user", Cell.str "# ops", Cell.str "% ops", Cell.str "# bau",
            Cell.str "% bau", Cell.str "# tactical", Cell.str "% tactical"], []⟩) ∧
    sprintPoints goEnv demoFetch 7 demoShifts "2024-01-01" "2024-01-07" ""
      = .done ⟨4,
          ⟨[Cell.str "engineer", Cell.str "oncall days", Cell.str "off shift days",
            Cell.str "tactical %", Cell.str "suggested SP"], []⟩⟩ := by
  obtain ⟨hops, hsprint⟩ := sprint_and_ops_render_no_rows goEnv goEnv_sound demoFetch demoShifts
    "2024-01-01" "2024-01-07" ""
    (fun w _ r hr => by
      rcases demoFetch_ok _ _ _ _ _ r hr with rfl | rfl <;> rfl)
  exact ⟨hops, (hsprint 739251 739257 (by decide) (by decide)).2 (by decide) 7 (by decide)⟩

end Oncall
